import Mathlib

/-!
Shallow embedding of the flame fractal renderer (Kwarrtz/flame).

Floating-point numbers (`f32`/`f64`) are modelled as real numbers `ℝ`;
machine integers (`u8`/`u32`/`usize`/`i8`) as `ℕ`/`ℤ`.  `ℝ` has no
NaN/infinity, so wherever the Rust code can produce a NaN (division by
zero inside a variation, `0.0/0.0` in `normalize`), the embedding uses
Lean's `x / 0 = 0` convention; the theorems below restrict themselves to
hypotheses under which the two semantics agree.  Rust aborts (panics,
failed `unwrap`/`expect`/assertions) are modelled by `Option`, `none`
standing for the abort, except where a claim's hypotheses make the abort
provably unreachable (noted at each definition).  Randomness is modelled
by explicit streams of sampled values, one record per iteration,
mirroring the sequence of `rng` draws the Rust code makes.
-/

namespace Flames

/-- 2D point, modelling `nalgebra::Point2<f32>` (src/src/flame.rs uses
`Point2<f32>` throughout). -/
structure Pt where
  x : ℝ
  y : ℝ

/-- A 2D affine map, the top two rows of the 3×3 matrix built by
`affine_from_raw` / `screen_transform`: row one is `(m11 m12 m13)`,
row two `(m21 m22 m23)`. -/
structure Affine where
  m11 : ℝ
  m12 : ℝ
  m13 : ℝ
  m21 : ℝ
  m22 : ℝ
  m23 : ℝ

/-- Application of the affine map to a point (matrix–vector product with
the implicit homogeneous 1). -/
noncomputable def Affine.apply (t : Affine) (p : Pt) : Pt :=
  ⟨t.m11 * p.x + t.m12 * p.y + t.m13, t.m21 * p.x + t.m22 * p.y + t.m23⟩

/-- The identity affine map, `nalgebra`'s `Default` for `Affine2` and the
raw form `[1, 0, 0, 1, 0, 0]` (src/src/function.rs `default_affine`). -/
def Affine.id : Affine := ⟨1, 0, 0, 0, 1, 0⟩

instance : Inhabited Affine := ⟨Affine.id⟩

/-- `Bounds` from src/src/bounds.rs. -/
structure Bounds where
  x_min : ℝ
  x_max : ℝ
  y_min : ℝ
  y_max : ℝ

/-- `Bounds::contains` (src/src/bounds.rs:17-21): strict inequalities on
all four sides. -/
def Bounds.contains (b : Bounds) (p : Pt) : Prop :=
  b.x_min < p.x ∧ p.x < b.x_max ∧ b.y_min < p.y ∧ p.y < b.y_max

noncomputable instance (b : Bounds) (p : Pt) : Decidable (b.contains p) := by
  unfold Bounds.contains; infer_instance

/-- `Bounds::width` (src/src/bounds.rs). -/
def Bounds.width (b : Bounds) : ℝ := b.x_max - b.x_min

/-- `Bounds::height` (src/src/bounds.rs). -/
def Bounds.height (b : Bounds) : ℝ := b.y_max - b.y_min

/-- Rust `f32 as usize`: truncation toward zero, saturating below at 0.
For nonnegative reals this is the floor. -/
noncomputable def usizeOfReal (x : ℝ) : ℕ := (⌊x⌋).toNat

/-- `Flame::screen_transform` (src/src/flame.rs:126-134): the fixed
screen-space affine map from bounds to pixel coordinates. -/
noncomputable def screenTransform (b : Bounds) (width height : ℕ) : Affine :=
  let wScale := ((width : ℝ) - 1) / b.width
  let hScale := ((height : ℝ) - 1) / b.height
  ⟨wScale, 0, -b.x_min * wScale, 0, -hScale, b.y_max * hScale⟩

/-- The per-call entropy a single `Variation::eval` may draw
(src/src/variation.rs `RandVars`): up to five `psi` draws (uniform in
[0,1)) and one `lambda` draw (±1). -/
structure VarRand where
  psi1 : ℝ
  psi2 : ℝ
  psi3 : ℝ
  psi4 : ℝ
  psi5 : ℝ
  lam : ℝ

/-- The `Variation` enum (src/src/variation.rs:11-46): a closed tagged
union of 33 kinds, some carrying 0–4 real parameters. -/
inductive Variation where
  | Id
  | Sinusoidal
  | Spherical
  | Swirl
  | Horseshoe
  | Polar
  | Handkerchief
  | Heart
  | Disc
  | BrokenDisc
  | Spiral
  | Hyperbolic
  | Diamond
  | Ex
  | Bent
  | Fisheye
  | Eyefish
  | Exponential
  | Power
  | Cosine
  | Cylinder
  | Tangent
  | Bubble
  | Cross
  | Blob (h l w : ℝ)
  | Pdj (a b c d : ℝ)
  | Fan2 (a b : ℝ)
  | Rings2 (v : ℝ)
  | Perspective (angle dist : ℝ)
  | Curl (c1 c2 : ℝ)
  | Noise
  | Gaussian
  | JuliaScope (power dist : ℝ)

/-- `impl Default for Variation` (src/src/variation.rs:211-215). -/
instance : Inhabited Variation := ⟨Variation.Id⟩

/-- The discriminant enum generated by the `#[variation]` attribute macro
(src/flame_macro/src/lib.rs:20-25): one nullary tag per variant. -/
inductive VariationDiscriminant where
  | Id
  | Sinusoidal
  | Spherical
  | Swirl
  | Horseshoe
  | Polar
  | Handkerchief
  | Heart
  | Disc
  | BrokenDisc
  | Spiral
  | Hyperbolic
  | Diamond
  | Ex
  | Bent
  | Fisheye
  | Eyefish
  | Exponential
  | Power
  | Cosine
  | Cylinder
  | Tangent
  | Bubble
  | Cross
  | Blob
  | Pdj
  | Fan2
  | Rings2
  | Perspective
  | Curl
  | Noise
  | Gaussian
  | JuliaScope
  deriving DecidableEq

/-- `VariationDiscriminant::num_parameters` as generated by the macro
(src/flame_macro/src/lib.rs:52-58): the declared field count of each
variant of src/src/variation.rs. -/
def VariationDiscriminant.numParameters : VariationDiscriminant → ℕ
  | .Blob => 3
  | .Pdj => 4
  | .Fan2 => 2
  | .Rings2 => 1
  | .Perspective => 2
  | .Curl => 2
  | .JuliaScope => 2
  | _ => 0

/-- The body of the macro-generated `Variation::build` before the final
exhaustion check (src/flame_macro/src/lib.rs:73-87): each field is
filled by `parameters.next()?`, so a too-short stream fails; the
remaining stream is returned alongside the built value. -/
def Variation.buildAux : VariationDiscriminant → List ℝ → Option (Variation × List ℝ)
  | .Id, rest => some (.Id, rest)
  | .Sinusoidal, rest => some (.Sinusoidal, rest)
  | .Spherical, rest => some (.Spherical, rest)
  | .Swirl, rest => some (.Swirl, rest)
  | .Horseshoe, rest => some (.Horseshoe, rest)
  | .Polar, rest => some (.Polar, rest)
  | .Handkerchief, rest => some (.Handkerchief, rest)
  | .Heart, rest => some (.Heart, rest)
  | .Disc, rest => some (.Disc, rest)
  | .BrokenDisc, rest => some (.BrokenDisc, rest)
  | .Spiral, rest => some (.Spiral, rest)
  | .Hyperbolic, rest => some (.Hyperbolic, rest)
  | .Diamond, rest => some (.Diamond, rest)
  | .Ex, rest => some (.Ex, rest)
  | .Bent, rest => some (.Bent, rest)
  | .Fisheye, rest => some (.Fisheye, rest)
  | .Eyefish, rest => some (.Eyefish, rest)
  | .Exponential, rest => some (.Exponential, rest)
  | .Power, rest => some (.Power, rest)
  | .Cosine, rest => some (.Cosine, rest)
  | .Cylinder, rest => some (.Cylinder, rest)
  | .Tangent, rest => some (.Tangent, rest)
  | .Bubble, rest => some (.Bubble, rest)
  | .Cross, rest => some (.Cross, rest)
  | .Noise, rest => some (.Noise, rest)
  | .Gaussian, rest => some (.Gaussian, rest)
  | .Blob, h :: l :: w :: rest => some (.Blob h l w, rest)
  | .Blob, _ => none
  | .Pdj, a :: b :: c :: d :: rest => some (.Pdj a b c d, rest)
  | .Pdj, _ => none
  | .Fan2, a :: b :: rest => some (.Fan2 a b, rest)
  | .Fan2, _ => none
  | .Rings2, v :: rest => some (.Rings2 v, rest)
  | .Rings2, _ => none
  | .Perspective, angle :: dist :: rest => some (.Perspective angle dist, rest)
  | .Perspective, _ => none
  | .Curl, c1 :: c2 :: rest => some (.Curl c1 c2, rest)
  | .Curl, _ => none
  | .JuliaScope, power :: dist :: rest => some (.JuliaScope power dist, rest)
  | .JuliaScope, _ => none

/-- `Variation::build` (src/flame_macro/src/lib.rs:73-87): build the
variant consuming one stream element per declared field, then succeed
only if the stream is exhausted (`match parameters.next() { None =>
Some(var), _ => None }`). -/
def Variation.build (discr : VariationDiscriminant) (params : List ℝ) : Option Variation :=
  match Variation.buildAux discr params with
  | none => none
  | some (v, rest) =>
    match rest with
    | [] => some v
    | _ :: _ => none

/-- Rust `f32::trunc`: round toward zero. -/
noncomputable def rTrunc (x : ℝ) : ℝ := if 0 ≤ x then (⌊x⌋ : ℝ) else (⌈x⌉ : ℝ)

/-- Rust `f32::atan2(self = y, other = x)`: the four-quadrant arctangent
(used by the `phi` derived quantity of `Variation::eval`). -/
noncomputable def atan2 (y x : ℝ) : ℝ :=
  if 0 < x then Real.arctan (y / x)
  else if x < 0 ∧ 0 ≤ y then Real.arctan (y / x) + Real.pi
  else if x < 0 then Real.arctan (y / x) - Real.pi
  else if 0 < y then Real.pi / 2
  else if y < 0 then -(Real.pi / 2)
  else 0

/-- `Variation::eval` (src/src/variation.rs:66-208).  The lazily
memoized derived quantities `r`, `theta`, `phi` are pure, so they are
modelled as plain local definitions; the entropy draws `psi`/`lambda`
come from the `VarRand` record in the order the Rust code makes them.
Divisions that Rust lets produce NaN/∞ use Lean's `x / 0 = 0`. -/
noncomputable def Variation.eval (v : Variation) (rv : VarRand) (arg : Pt) : Pt :=
  let x := arg.x
  let y := arg.y
  let r : ℝ := Real.sqrt (x * x + y * y)
  let theta : ℝ :=
    if y = 0 then
      if x = 0 then 0 else if 0 < x then 0.5 * Real.pi else 1.5 * Real.pi
    else Real.arctan (x / y)
  let phi : ℝ := atan2 y x
  match v with
  | .Id => ⟨x, y⟩
  | .Sinusoidal => ⟨Real.sin x, Real.sin y⟩
  | .Spherical => let r2 := x * x + y * y; ⟨x / r2, y / r2⟩
  | .Swirl =>
    let r2 := x * x + y * y
    ⟨x * Real.sin r2 - y * Real.cos r2, x * Real.cos r2 + y * Real.sin r2⟩
  | .Horseshoe => ⟨(x - y) * (x + y) / r, 2 * x * y / r⟩
  | .Polar => ⟨theta * Real.pi⁻¹, r - 1⟩
  | .Handkerchief => ⟨Real.sin (theta + r), Real.cos (theta - r)⟩
  | .Heart => ⟨r * Real.sin (theta * r), -r * Real.cos (theta * r)⟩
  | .Disc => ⟨theta * Real.pi⁻¹ * Real.sin (Real.pi * r), theta * Real.pi⁻¹ * Real.cos (Real.pi * r)⟩
  | .BrokenDisc => ⟨theta * Real.pi⁻¹ * Real.sin (Real.pi * r), theta * Real.pi⁻¹⟩
  | .Spiral => ⟨(y + Real.sin r) / r, (x - Real.cos r) / r⟩
  | .Hyperbolic => ⟨x / r, r * y⟩
  | .Diamond => ⟨Real.sin theta * Real.cos r, Real.cos theta * Real.sin r⟩
  | .Ex =>
    let p0 := Real.sin (theta + r) ^ 3
    let p1 := Real.cos (theta - r) ^ 3
    ⟨r * (p0 + p1), r * (p0 - p1)⟩
  | .Bent =>
    let a := if 0 ≤ x then x else 2 * x
    let b := if 0 ≤ y then y else 0.5 * y
    ⟨a, b⟩
  | .Fisheye => ⟨2 * y / (r + 1), 2 * x / (r + 1)⟩
  | .Eyefish => ⟨2 * x / (r + 1), 2 * y / (r + 1)⟩
  | .Exponential =>
    ⟨Real.exp (x - 1) * Real.cos (Real.pi * y), Real.exp (x - 1) * Real.sin (Real.pi * y)⟩
  | .Power => let a := r ^ (x - 1); ⟨a * y, a * x⟩
  | .Cosine => ⟨Real.cos (Real.pi * x) * Real.cosh y, -Real.sin (Real.pi * x) * Real.sinh y⟩
  | .Cylinder => ⟨Real.sin x, y⟩
  | .Tangent => ⟨Real.sin x / Real.cos y, Real.tan y⟩
  | .Bubble => let a := 4 / (x * x + y * y + 4); ⟨a * x, a * y⟩
  | .Cross => let a := 1 / |x * x - y * y|; ⟨a * x, a * x⟩
  | .Blob h l w =>
    let a := r * (l + (h - l) / 2 * (1 + Real.sin (theta * w)))
    ⟨a * y, a * x⟩
  | .Pdj a b c d =>
    ⟨Real.sin (a * y) - Real.cos (b * x), Real.sin (c * x) - Real.cos (d * y)⟩
  | .Fan2 a b =>
    let p1 := Real.pi * a * a
    let t := theta + b - p1 * rTrunc (2 * theta * b / p1)
    let sgn : ℝ := if p1 / 2 < t then -1 else 1
    ⟨r * Real.cos (theta + sgn * p1 / 2), r * Real.sin (theta + sgn * p1 / 2)⟩
  | .Rings2 val =>
    let p := val * val
    let t := r - 2 * p * rTrunc ((r + p) / 2 / p) + r * (1 - p)
    ⟨t * x, t * y⟩
  | .Perspective angle dist =>
    let a := dist / (dist - y * Real.sin angle)
    ⟨a * x, a * y * Real.cos angle⟩
  | .Curl c1 c2 =>
    let t1 := 1 + c1 * x + c2 * (x * x - y * y)
    let t2 := c1 * y + 2 * c2 * x * y
    let a := 1 / (t1 * t1 + t2 * t2)
    ⟨a * (x * t1 + y * t2), a * (y * t1 - x * t2)⟩
  | .Noise =>
    let psi1 := rv.psi1
    let psi2 := 2 * Real.pi * rv.psi2
    ⟨psi1 * x * Real.cos psi2, psi1 * y * Real.sin psi2⟩
  | .Gaussian =>
    let a := (rv.psi1 - 2) + (rv.psi2 - 2) + (rv.psi3 - 2) + (rv.psi4 - 2)
    let psi5 := 2 * Real.pi * rv.psi5
    ⟨a * Real.cos psi5, Real.sin psi5⟩
  | .JuliaScope power dist =>
    let p3 := rTrunc (|power| * rv.psi1)
    let t := (rv.lam * phi + 2 * Real.pi * p3) / power
    let a := r ^ (dist / power)
    ⟨a * Real.cos t, a * Real.sin t⟩

/-- `Function` (src/src/function.rs:41-47). -/
structure Function where
  variation : Variation
  affine_pre : Affine
  affine_post : Affine

/-- `Default` for `Function`: `Id` variation between identity affines. -/
instance : Inhabited Function := ⟨⟨Variation.Id, Affine.id, Affine.id⟩⟩

/-- `Function::eval` (src/src/function.rs:58-60): affine-pre, then the
variation, then affine-post. -/
noncomputable def Function.eval (f : Function) (rv : VarRand) (arg : Pt) : Pt :=
  f.affine_post.apply (f.variation.eval rv (f.affine_pre.apply arg))

/-- `FunctionEntry` (src/src/function.rs:12-17). -/
structure FunctionEntry where
  function : Function
  weight : ℝ
  color : ℝ
  color_speed : ℝ

/-- `Default` for `FunctionEntry` (all `f32` fields default to 0). -/
instance : Inhabited FunctionEntry := ⟨⟨default, 0, 0, 0⟩⟩

/-- `FunctionEntry::new` (src/src/function.rs:20-38): construction fails
unless `color` and `color_speed` lie in [0,1]; `none` models the `Err`
returns (`FunctionEntryError::Color` / `::ColorSpeed`). -/
noncomputable def FunctionEntry.new (function : Function) (weight color color_speed : ℝ) :
    Option FunctionEntry :=
  if 1 < color ∨ color < 0 then none
  else if 1 < color_speed ∨ color_speed < 0 then none
  else some ⟨function, weight, color, color_speed⟩

/-- `Color` (src/src/color.rs:3-8); the `u8` channels are modelled as
naturals, with the representation invariant `≤ 255` carried by the
palette validity predicate. -/
structure Color where
  red : ℕ
  green : ℕ
  blue : ℕ
  deriving DecidableEq

instance : Inhabited Color := ⟨⟨0, 0, 0⟩⟩

/-- Rust `f32 as u8`: truncation toward zero saturating into [0, 255]. -/
noncomputable def u8OfReal (x : ℝ) : ℕ := (min 255 ⌊x⌋).toNat

/-- The free function `lerp` (src/src/color.rs:10-12):
`(a as f32 * (1. - t) + b as f32 * t) as u8`. -/
noncomputable def lerp (a b : ℕ) (t : ℝ) : ℕ :=
  u8OfReal ((a : ℝ) * (1 - t) + (b : ℝ) * t)

/-- `Color::lerp` (src/src/color.rs:19-25): channel-wise interpolation. -/
noncomputable def Color.lerp (start finish : Color) (t : ℝ) : Color :=
  ⟨Flames.lerp start.red finish.red t, Flames.lerp start.green finish.green t,
    Flames.lerp start.blue finish.blue t⟩

/-- `Palette` (src/src/color.rs:28-32): interior keys plus colors. -/
structure Palette where
  keys : List ℝ
  colors : List Color

/-- `Iterator::rposition`: the index of the last element satisfying the
predicate. -/
def rposition (p : ℝ → Prop) [DecidablePred p] : List ℝ → Option ℕ
  | [] => none
  | k :: rest =>
    match rposition p rest with
    | some j => some (j + 1)
    | none => if p k then some 0 else none

/-- `Palette::new` (src/src/color.rs:35-68).  With explicit keys it
rejects keys outside (0,1), non-monotonic adjacent pairs (checked by
zipping the keys with themselves shifted by one), and a key count other
than `colors.len() - 2`; with `none` it fabricates `colors.len() - 1 - 1`
evenly spaced keys.  `none` models the `Err` returns. -/
noncomputable def Palette.new (colors : List Color) (keys : Option (List ℝ)) : Option Palette :=
  match keys with
  | none =>
    let l := colors.length - 1
    let ks := (List.range l).tail.map (fun i => (i : ℝ) / (l : ℝ))
    if ks.length + 2 = colors.length then some ⟨ks, colors⟩ else none
  | some ks =>
    if ∃ k ∈ ks, k ≤ 0 ∨ 1 ≤ k then none
    else if ∃ pr ∈ ks.zip ks.tail, pr.2 ≤ pr.1 then none
    else if ks.length + 2 = colors.length then some ⟨ks, colors⟩ else none

/-- The palette construction invariant: interior keys strictly inside
(0,1) and strictly increasing, `count(keys) + 2 = count(colors)`, and
every color channel in the `u8` range. -/
def Palette.Valid (p : Palette) : Prop :=
  (∀ k ∈ p.keys, 0 < k ∧ k < 1) ∧ p.keys.Chain' (· < ·) ∧
    p.keys.length + 2 = p.colors.length ∧
    ∀ col ∈ p.colors, col.red ≤ 255 ∧ col.green ≤ 255 ∧ col.blue ≤ 255

/-- `Palette::sample` (src/src/color.rs:70-83): fail outside [0,1];
otherwise find the containing key interval (implicit boundary keys 0
and 1 supplied by `unwrap_or`) and interpolate.  `keys.get(i - 1)` at
`i = 0` wraps the `usize` and yields `None` (release semantics), hence
the explicit `i = 0` case. -/
noncomputable def Palette.sample (p : Palette) (c : ℝ) : Option Color :=
  if c < 0 ∨ 1 < c then none
  else
    let i : ℕ :=
      match rposition (· < c) p.keys with
      | none => 0
      | some j => j + 1
    let kbefore : ℝ := if i = 0 then 0 else p.keys.getD (i - 1) 0
    let kafter : ℝ := p.keys.getD i 1
    let t := (c - kbefore) / (kafter - kbefore)
    some (Color.lerp (p.colors.getD i default) (p.colors.getD (i + 1) default) t)

/-- `Bucket<T>` (src/src/buffer.rs:7-13). -/
structure Bucket (T : Type) where
  alpha : T
  red : T
  green : T
  blue : T

instance {T : Type} [Inhabited T] : Inhabited (Bucket T) := ⟨⟨default, default, default, default⟩⟩

/-- `Bucket::map` (src/src/buffer.rs:100-107). -/
def Bucket.map {T S : Type} (b : Bucket T) (f : T → S) : Bucket S :=
  ⟨f b.alpha, f b.red, f b.green, f b.blue⟩

/-- `AddAssign for Bucket` (src/src/buffer.rs:127-133): channel-wise sum. -/
def Bucket.add {T : Type} [Add T] (b c : Bucket T) : Bucket T :=
  ⟨b.alpha + c.alpha, b.red + c.red, b.green + c.green, b.blue + c.blue⟩

/-- `MulAssign<T> for Bucket` (src/src/buffer.rs:121-125): every channel
(alpha included) multiplied on the right by the scalar. -/
noncomputable def Bucket.smul (b : Bucket ℝ) (s : ℝ) : Bucket ℝ :=
  ⟨b.alpha * s, b.red * s, b.green * s, b.blue * s⟩

/-- `Bucket::max` (src/src/buffer.rs:135-144): channel-wise maximum. -/
noncomputable def Bucket.maxB (b c : Bucket ℝ) : Bucket ℝ :=
  ⟨max b.alpha c.alpha, max b.red c.red, max b.green c.green, max b.blue c.blue⟩

/-- `Buffer<T>` (src/src/buffer.rs:146-151): a width×height grid stored
as a flat row-major bucket vector. -/
structure Buffer (T : Type) where
  width : ℕ
  height : ℕ
  buckets : List (Bucket T)

/-- `Buffer::new` (src/src/buffer.rs:197-203): `width*height` zero
buckets. -/
def Buffer.new {T : Type} [Zero T] (width height : ℕ) : Buffer T :=
  ⟨width, height, List.replicate (width * height) ⟨0, 0, 0, 0⟩⟩

/-- `Buffer::convert` (src/src/buffer.rs:182-194) at the one instantiation
`render` uses, `u32 → f64` (always exact, so no `unwrap` failure). -/
noncomputable def Buffer.convert (b : Buffer ℕ) : Buffer ℝ :=
  ⟨b.width, b.height, b.buckets.map (fun bk => bk.map (fun n => (n : ℝ)))⟩

/-- The running merge inside `Buffer::combine` (src/src/buffer.rs:211-218):
`assert_eq!` on both dimensions (modelled as `none`), then channel-wise
`+=` over zipped bucket vectors (Rust's `zip` and `List.zipWith` both
truncate to the shorter vector). -/
def Buffer.combineGo {T : Type} [Add T] : Buffer T → List (Buffer T) → Option (Buffer T)
  | acc, [] => some acc
  | acc, b :: rest =>
    if acc.width = b.width ∧ acc.height = b.height then
      Buffer.combineGo ⟨acc.width, acc.height, List.zipWith Bucket.add acc.buckets b.buckets⟩ rest
    else none

/-- `Buffer::combine` (src/src/buffer.rs:205-221): `none` models the
`expect` abort on an empty iterator and the dimension assertions. -/
def Buffer.combine {T : Type} [Add T] : List (Buffer T) → Option (Buffer T)
  | [] => none
  | b :: rest => Buffer.combineGo b rest

/-- `Vec` indexed update; Rust aborts on an out-of-range index, the model
leaves the list unchanged (the safety theorem for `at_mut` shows the
index is in range whenever the chaos game plots). -/
def listModify {α : Type} (l : List α) (i : ℕ) (f : α → α) : List α :=
  match l, i with
  | [], _ => []
  | a :: rest, 0 => f a :: rest
  | a :: rest, n + 1 => a :: listModify rest n f

/-- `RenderConfig` (src/src/render.rs:7-13). -/
structure RenderConfig where
  brightness : ℝ
  width : ℕ
  height : ℕ
  grayscale : Bool

/-- `Buffer::log_density` (src/src/render.rs:35-44): for buckets whose
alpha is a normal float (modelled as `alpha ≠ 0`; `ℝ` has no subnormal,
infinite or NaN values), rescale all four channels by
`max(0, ln alpha - ln iters + brightness) / alpha`. -/
noncomputable def logDensity (brightness iters : ℝ) (b : Buffer ℝ) : Buffer ℝ :=
  ⟨b.width, b.height,
    b.buckets.map (fun bk =>
      if bk.alpha ≠ 0 then
        bk.smul (max 0 (Real.log bk.alpha - Real.log iters + brightness) / bk.alpha)
      else bk)⟩

/-- `Buffer::normalize` (src/src/render.rs:58-67): divide alpha by the
buffer-wide maximum alpha and each RGB channel by the single buffer-wide
maximum RGB value.  `none` models the `reduce(..).unwrap()` abort on an
empty bucket vector. -/
noncomputable def normalize (b : Buffer ℝ) : Option (Buffer ℝ) :=
  match b.buckets with
  | [] => none
  | b0 :: rest =>
    let m := rest.foldl Bucket.maxB b0
    let maxRgb := max (max m.red m.green) m.blue
    some ⟨b.width, b.height,
      b.buckets.map (fun bk =>
        ⟨bk.alpha / m.alpha, bk.red / maxRgb, bk.green / maxRgb, bk.blue / maxRgb⟩)⟩

/-- `Buffer::gamma` (src/src/render.rs:46-56): `p = 1/gamma - 1`,
`alpha_scale = alpha^(p·vibrancy)` from the bucket's alpha before the
update, then every channel (alpha included)
`c ← c · (c^(p·(1-vibrancy)) · alpha_scale)`. -/
noncomputable def gammaStage (gamma vibrancy : ℝ) (b : Buffer ℝ) : Buffer ℝ :=
  let p := gamma⁻¹ - 1
  let pAlpha := p * vibrancy
  let pChannel := p * (1 - vibrancy)
  ⟨b.width, b.height,
    b.buckets.map (fun bk =>
      let alphaScale := bk.alpha ^ pAlpha
      bk.map (fun c => c * (c ^ pChannel * alphaScale)))⟩

/-- `Buffer::clamp` (src/src/render.rs:69-75): every channel clamped to
[0,1] (`num_traits::clamp`). -/
noncomputable def clampStage (b : Buffer ℝ) : Buffer ℝ :=
  ⟨b.width, b.height, b.buckets.map (fun bk => bk.map (fun c => max 0 (min 1 c)))⟩

/-- The free function `scale` (src/src/render.rs:86-88) for an unsigned
target with maximum value `maxS`:
`S::from(T::from(S::max_value()).unwrap() * T::max(zero(), val)).unwrap()`.
The lower clamp at 0 is explicit; `none` models the `unwrap` abort when
the truncated product does not fit the target type. -/
noncomputable def scale (maxS : ℕ) (val : ℝ) : Option ℕ :=
  let w := (maxS : ℝ) * max 0 val
  if w < (maxS : ℝ) + 1 then some (⌊w⌋).toNat else none

/-- `Bucket.map` through `Option`, for `scale_convert`. -/
noncomputable def Bucket.mapOpt (b : Bucket ℝ) (f : ℝ → Option ℕ) : Option (Bucket ℕ) :=
  match f b.alpha, f b.red, f b.green, f b.blue with
  | some a, some r, some g, some bl => some ⟨a, r, g, bl⟩
  | _, _, _, _ => none

/-- The bucket traversal of `Buffer::scale_convert` (src/src/render.rs:77-83). -/
noncomputable def scaleBuckets (maxS : ℕ) : List (Bucket ℝ) → Option (List (Bucket ℕ))
  | [] => some []
  | bk :: rest =>
    match bk.mapOpt (scale maxS), scaleBuckets maxS rest with
    | some b, some bs => some (b :: bs)
    | _, _ => none

/-- `Buffer::scale_convert` (src/src/render.rs:77-83): map `scale` over
every channel of every bucket. -/
noncomputable def scaleConvert (maxS : ℕ) (b : Buffer ℝ) : Option (Buffer ℕ) :=
  (scaleBuckets maxS b.buckets).map (fun bs => ⟨b.width, b.height, bs⟩)

/-- `Buffer::render` (src/src/render.rs:16-21): widen to floats, apply
log-density compression, normalization, then scale/convert.  (The
`gamma` and `clamp` methods exist on `Buffer` but `render` does not call
them.) -/
noncomputable def render (maxS : ℕ) (cfg : RenderConfig) (iters : ℕ) (b : Buffer ℕ) :
    Option (Buffer ℕ) :=
  (normalize (logDensity cfg.brightness (iters : ℝ) b.convert)).bind (scaleConvert maxS)

/-- Modelled from the spec: the tone-mapping pipeline as §4.5 orders it —
log-density, normalization, gamma/vibrancy correction, clamping to [0,1],
then scale/convert.  (The gamma and vibrancy parameters come with the
spec's `RenderConfig`; the code's `RenderConfig` has no such fields.)
Stated only to be compared with `render` above. -/
noncomputable def renderSpecStages (maxS : ℕ) (cfg : RenderConfig) (gamma vibrancy : ℝ)
    (iters : ℕ) (b : Buffer ℕ) : Option (Buffer ℕ) :=
  (normalize (logDensity cfg.brightness (iters : ℝ) b.convert)).bind
    (fun nb => scaleConvert maxS (clampStage (gammaStage gamma vibrancy nb)))

/-- `Flame` (src/src/flame.rs:23-32); `symmetry` is an `i8`. -/
structure Flame where
  functions : List FunctionEntry
  last : Function
  symmetry : ℤ
  palette : Palette
  bounds : Bounds

/-- `RunConfig` (src/src/flame.rs:15-21). -/
structure RunConfig where
  width : ℕ
  height : ℕ
  iters : ℕ
  threads : ℕ

/-- Sum of the entry weights, `self.functions.iter().map(|f| f.weight).sum()`
(src/src/flame.rs:113). -/
noncomputable def totalWeight (fs : List FunctionEntry) : ℝ := (fs.map (·.weight)).sum

/-- The cumulative-sum scan of `Flame::rand_entry` (src/src/flame.rs:115-121):
`x` accumulates the weights; the first entry with `r < x` is returned. -/
noncomputable def pickGo (x r : ℝ) : List FunctionEntry → Option FunctionEntry
  | [] => none
  | fe :: rest => if r < x + fe.weight then some fe else pickGo (x + fe.weight) r rest

/-- `Flame::rand_entry` (src/src/flame.rs:112-124) with the sampled value
`r` made explicit: `Uniform::new(0.0, total).unwrap()` aborts (here
`none`) unless `0 < total`; otherwise the cumulative-sum scan runs, with
the last entry as fallback when the scan undershoots. -/
noncomputable def rand_entry (fs : List FunctionEntry) (r : ℝ) : Option FunctionEntry :=
  if totalWeight fs ≤ 0 then none
  else some ((pickGo 0 r fs).getD ((fs.getLast?).getD default))

/-- State of the chaos-game loop: the current point and color coordinate. -/
structure ChaosState where
  point : Pt
  c : ℝ

/-- The random draws one iteration of `run_partial` may make:
`caseSel = rng.random_range(0..num_cases)`, `entryR` the
`Uniform::new(0.0, total)` sample inside `rand_entry` (defined only when
`0 < total`, the condition under which that sampler exists),
`rotTimes = rng.random_range(0..rot_degree)`, and the variation entropy
for the chosen entry's function and for the final function. -/
structure IterRand where
  caseSel : ℕ
  entryR : ℝ
  rotTimes : ℤ
  vr1 : VarRand
  vr2 : VarRand

/-- `num_cases` (src/src/flame.rs:69-77): 1 without symmetry, 2 for
rotational symmetry, 3 when reflection is added. -/
def numCases (symmetry : ℤ) : ℕ :=
  if symmetry = 0 ∨ symmetry = 1 then 1 else if 1 < symmetry then 2 else 3

/-- One iteration of the `match` in `run_partial` (src/src/flame.rs:80-98):
case 0 applies a weighted-random entry then the mandatory final function
and updates the color coordinate by the exponential moving average; case
1 rotates by a random multiple of 360°/|symmetry|; case 2 reflects the
x-coordinate.  A `caseSel` outside `0..num_cases` hits `unreachable!()`
in Rust and never occurs under the rng contract `caseSel < numCases`;
the model leaves the state unchanged there. -/
noncomputable def iterStep (f : Flame) (ir : IterRand) (s : ChaosState) : ChaosState :=
  match ir.caseSel with
  | 0 =>
    let entry := (pickGo 0 ir.entryR f.functions).getD ((f.functions.getLast?).getD default)
    let p1 := entry.function.eval ir.vr1 s.point
    let p2 := f.last.eval ir.vr2 p1
    ⟨p2, s.c * (1 - entry.color_speed) + entry.color * entry.color_speed⟩
  | 1 =>
    let deg : ℤ := |f.symmetry|
    let rot := 2 * Real.pi * (ir.rotTimes : ℝ) / (deg : ℝ)
    ⟨⟨Real.cos rot * s.point.x - Real.sin rot * s.point.y,
      Real.sin rot * s.point.x + Real.cos rot * s.point.y⟩, s.c⟩
  | 2 => ⟨⟨-s.point.x, s.point.y⟩, s.c⟩
  | _ + 3 => s

/-- The plotting step of `run_partial` (src/src/flame.rs:101-107): map
the point through the screen transform, truncate to bucket coordinates,
sample the palette at the current color coordinate and add the sampled
color plus one alpha count to that bucket.  `at_mut` aborts on an
out-of-range index (the model leaves the buffer unchanged; the safety
theorem shows the index is in range for points inside the bounds), and
`.expect("color index out of bounds")` aborts when the palette sample is
`none` (shown unreachable for color coordinates in [0,1]). -/
noncomputable def plotStep (f : Flame) (trans : Affine) (b : Buffer ℕ) (s : ChaosState) :
    Buffer ℕ :=
  let sp := trans.apply s.point
  let px := usizeOfReal sp.x
  let py := usizeOfReal sp.y
  let color := (f.palette.sample s.c).getD default
  ⟨b.width, b.height,
    listModify b.buckets (px + py * b.width) (fun bk =>
      ⟨bk.alpha + 1, bk.red + color.red, bk.green + color.green, bk.blue + color.blue⟩)⟩

/-- The loop of `run_partial` (src/src/flame.rs:79-109) up to a given
iteration count: update the state by `iterStep`, then, for iterations
with index `i > 20` whose updated point lies strictly inside the bounds,
plot it. -/
noncomputable def runPartialAux (f : Flame) (trans : Affine) (rng : ℕ → IterRand) :
    ℕ → Buffer ℕ × ChaosState → Buffer ℕ × ChaosState
  | 0, bs => bs
  | n + 1, bs =>
    let prev := runPartialAux f trans rng n bs
    let s := iterStep f (rng n) prev.2
    (if 20 < n ∧ f.bounds.contains s.point then plotStep f trans prev.1 s else prev.1, s)

/-- `Flame::run_partial` (src/src/flame.rs:59-110) with the rng draws
made explicit: `p0`/`c0` are the initial point and color coordinate
(drawn uniformly from [0,1)²/[0,1) by the callers), `rng` the
per-iteration draws.  An empty function list returns immediately with
the buffer untouched. -/
noncomputable def runPartial (f : Flame) (buffer : Buffer ℕ) (iters : ℕ) (rng : ℕ → IterRand)
    (p0 : Pt) (c0 : ℝ) : Buffer ℕ × ChaosState :=
  if f.functions.isEmpty then (buffer, ⟨p0, c0⟩)
  else runPartialAux f (screenTransform f.bounds buffer.width buffer.height) rng iters
    (buffer, ⟨p0, c0⟩)

/-- The random state owned by one worker thread: the initial point and
color draws and the per-iteration draw stream. -/
structure RunStream where
  rng : ℕ → IterRand
  p0 : Pt
  c0 : ℝ

/-- `Flame::run_single_thread` (src/src/flame.rs:52-57): a fresh zero
buffer filled by `run_partial`. -/
noncomputable def runSingleThread (f : Flame) (width height iters : ℕ) (st : RunStream) :
    Buffer ℕ :=
  (runPartial f (Buffer.new width height) iters st.rng st.p0 st.c0).1

/-- `Flame::run` (src/src/flame.rs:35-50): one thread runs directly;
otherwise each of `cfg.threads` workers runs `iters / threads`
iterations into its own buffer and the buffers are merged by
`Buffer::combine` (`none` models the abort of combining an empty buffer
list, which happens exactly when `cfg.threads = 0`). -/
noncomputable def run (f : Flame) (cfg : RunConfig) (streams : ℕ → RunStream) :
    Option (Buffer ℕ) :=
  if cfg.threads = 1 then
    some (runSingleThread f cfg.width cfg.height cfg.iters (streams 0))
  else
    Buffer.combine ((List.range cfg.threads).map (fun t =>
      runSingleThread f cfg.width cfg.height (cfg.iters / cfg.threads) (streams t)))

/-- The bucket-wise maximum `normalize` reduces (src/src/render.rs:59)
when the bucket vector is nonempty. -/
noncomputable def normMaxBucket (b : Buffer ℝ) : Bucket ℝ :=
  match b.buckets with
  | [] => default
  | b0 :: rest => rest.foldl Bucket.maxB b0

/-- The single shared maximum RGB value of `normalize`
(src/src/render.rs:60). -/
noncomputable def normMaxRgb (b : Buffer ℝ) : ℝ :=
  max (max (normMaxBucket b).red (normMaxBucket b).green) (normMaxBucket b).blue

/-- The sequence of keys of a palette with the implicit boundary keys:
`boundaryKey p 0 = 0`, `boundaryKey p (j+1)` the j-th interior key, and
`boundaryKey p (keys.length + 1) = 1` (the `getD` default).  This is
exactly how `Palette::sample` reads `kbefore`/`kafter`. -/
noncomputable def boundaryKey (p : Palette) (j : ℕ) : ℝ :=
  if j = 0 then 0 else p.keys.getD (j - 1) 1

/-- The cumulative weight of the first `k` entries, the value of the
scan variable `x` of `rand_entry` after `k` loop steps. -/
noncomputable def prefixW (fs : List FunctionEntry) (k : ℕ) : ℝ :=
  ((fs.take k).map (·.weight)).sum

/-- Concrete inputs for the counterexamples and witnesses below: a
single-entry flame whose function is the identity (`Id` variation
between identity affines), weight 1, color 0, color speed 0. -/
noncomputable def cexEntry : FunctionEntry := ⟨⟨Variation.Id, Affine.id, Affine.id⟩, 1, 0, 0⟩

/-- A valid two-color palette with no interior keys. -/
def cexPalette : Palette := ⟨[], [⟨0, 0, 0⟩, ⟨255, 255, 255⟩]⟩

/-- The single-entry identity flame, no symmetry, bounds (-1,1)². -/
noncomputable def cexFlame : Flame := ⟨[cexEntry], default, 0, cexPalette, ⟨-1, 1, -1, 1⟩⟩

/-- A flame with no function entries at all. -/
noncomputable def emptyFlame : Flame := ⟨[], default, 0, cexPalette, ⟨-1, 1, -1, 1⟩⟩

/-- A fixed draw record: case 0 every iteration, entry sample 1/2. -/
noncomputable def cexRand : IterRand := ⟨0, 1/2, 0, ⟨0, 0, 0, 0, 0, 1⟩, ⟨0, 0, 0, 0, 0, 1⟩⟩

/-- The constant draw stream made of `cexRand`. -/
noncomputable def cexRng : ℕ → IterRand := fun _ => cexRand

/-- A fixed worker stream: initial point (0,0), initial color 0. -/
noncomputable def cexStream : RunStream := ⟨cexRng, ⟨0, 0⟩, 0⟩

/-- A concrete 2×1 integer histogram used to separate `render` from the
spec's five-stage pipeline. -/
def cexBuf : Buffer ℕ := ⟨2, 1, [⟨1, 4, 0, 0⟩, ⟨1, 1, 0, 0⟩]⟩

/-- A valid three-color palette with one interior key at 1/2. -/
noncomputable def witPalette : Palette := ⟨[1/2], [⟨0, 0, 0⟩, ⟨100, 100, 100⟩, ⟨255, 255, 255⟩]⟩

/-! ### Theorems -/

/-- C2: For every variation discriminant and every finite parameter
stream, `Variation::build` succeeds iff the stream length equals the
discriminant's declared parameter count; any mismatch (too few or too
many parameters) returns `None`. -/
theorem build_succeeds_iff_exact_arity (d : VariationDiscriminant) (ps : List ℝ) :
    (Variation.build d ps).isSome ↔ ps.length = d.numParameters := by
  cases d <;>
    rcases ps with _ | ⟨a, _ | ⟨b, _ | ⟨c, _ | ⟨e, _ | ⟨g, rest⟩⟩⟩⟩⟩ <;>
    simp [Variation.build, Variation.buildAux, VariationDiscriminant.numParameters]

lemma Bucket.add_comm_nat (a b : Bucket ℕ) : a.add b = b.add a := by
  simp [Bucket.add, Nat.add_comm]

lemma zipWith_bucket_add_comm (l1 l2 : List (Bucket ℕ)) :
    List.zipWith Bucket.add l1 l2 = List.zipWith Bucket.add l2 l1 := by
  induction l1 generalizing l2 with
  | nil => cases l2 <;> simp
  | cons a t ih => cases l2 <;> simp [Bucket.add_comm_nat, ih]

lemma zipWith_add_zero_right (l : List (Bucket ℕ)) (n : ℕ) (h : l.length ≤ n) :
    List.zipWith Bucket.add l (List.replicate n ⟨0, 0, 0, 0⟩) = l := by
  induction l generalizing n with
  | nil => simp
  | cons a t ih =>
    cases n with
    | zero => simp at h
    | succ m =>
      simp only [List.replicate_succ, List.zipWith_cons_cons]
      rw [ih m (by simpa using h)]
      simp [Bucket.add]

lemma zipWith_add_zero_left (l : List (Bucket ℕ)) (n : ℕ) (h : l.length ≤ n) :
    List.zipWith Bucket.add (List.replicate n ⟨0, 0, 0, 0⟩) l = l := by
  rw [zipWith_bucket_add_comm]; exact zipWith_add_zero_right l n h

/-- C6: For equal-sized integer histogram buffers, `combine([a,b])`
equals `combine([b,a])` bucket-wise and channel-wise, and combining a
buffer with the all-zero buffer of the same dimensions (in either
order) returns the original buffer. -/
theorem combine_comm_and_zero_identity (a b : Buffer ℕ)
    (hw : a.width = b.width) (hh : a.height = b.height)
    (hl : a.buckets.length = a.width * a.height) :
    Buffer.combine [a, b] = Buffer.combine [b, a] ∧
    Buffer.combine [a, Buffer.new a.width a.height] = some a ∧
    Buffer.combine [Buffer.new a.width a.height, a] = some a := by
  refine ⟨?_, ?_, ?_⟩
  · simp only [Buffer.combine, Buffer.combineGo, hw, hh, and_self, if_true,
      eq_comm (a := a.width), eq_comm (a := a.height)]
    rw [zipWith_bucket_add_comm]
  · simp only [Buffer.combine, Buffer.combineGo, Buffer.new, and_self, if_true]
    rw [zipWith_add_zero_right _ _ (by simp [hl])]
  · simp only [Buffer.combine, Buffer.combineGo, Buffer.new, and_self, if_true]
    rw [zipWith_add_zero_left _ _ (by simp [hl])]

/-- Witness for C6 at concrete 1×1 buffers. -/
theorem combine_comm_and_zero_identity_witness :
    Buffer.combine [(⟨1, 1, [⟨1, 2, 3, 4⟩]⟩ : Buffer ℕ), ⟨1, 1, [⟨5, 6, 7, 8⟩]⟩] =
      Buffer.combine [(⟨1, 1, [⟨5, 6, 7, 8⟩]⟩ : Buffer ℕ), ⟨1, 1, [⟨1, 2, 3, 4⟩]⟩] ∧
    Buffer.combine [(⟨1, 1, [⟨1, 2, 3, 4⟩]⟩ : Buffer ℕ), Buffer.new 1 1] =
      some ⟨1, 1, [⟨1, 2, 3, 4⟩]⟩ ∧
    Buffer.combine [Buffer.new 1 1, (⟨1, 1, [⟨1, 2, 3, 4⟩]⟩ : Buffer ℕ)] =
      some ⟨1, 1, [⟨1, 2, 3, 4⟩]⟩ :=
  combine_comm_and_zero_identity ⟨1, 1, [⟨1, 2, 3, 4⟩]⟩ ⟨1, 1, [⟨5, 6, 7, 8⟩]⟩ rfl rfl rfl

lemma logDensity_bucket_alpha (brightness iters : ℝ) (bk : Bucket ℝ) :
    (if bk.alpha ≠ 0 then
        bk.smul (max 0 (Real.log bk.alpha - Real.log iters + brightness) / bk.alpha)
      else bk).alpha =
      if bk.alpha ≠ 0 then max 0 (Real.log bk.alpha - Real.log iters + brightness)
      else bk.alpha := by
  by_cases h : bk.alpha = 0
  · simp [h]
  · simp only [h, ne_eq, not_false_iff, if_true, Bucket.smul]
    rw [mul_comm, div_mul_cancel₀ _ h]

/-- C7: Log-density compression is monotonic in brightness: for every
buffer, every iteration count and brightness values `b1 ≤ b2`, every
bucket's post-log-density alpha under `b2` is at least the one under
`b1`. -/
theorem log_density_monotone_in_brightness (buf : Buffer ℝ) (iters b1 b2 : ℝ)
    (h : b1 ≤ b2) (i : ℕ) :
    ((logDensity b1 iters buf).buckets.getD i default).alpha ≤
      ((logDensity b2 iters buf).buckets.getD i default).alpha := by
  simp only [logDensity, List.getD_eq_getElem?_getD, List.getElem?_map]
  cases hbk : buf.buckets[i]? with
  | none => exact le_rfl
  | some bk =>
    simp only [Option.map_some', Option.getD_some, logDensity_bucket_alpha]
    by_cases hα : bk.alpha = 0
    · simp [hα]
    · simp only [hα, ne_eq, not_false_iff, if_true]
      exact max_le_max le_rfl (by linarith)

/-- Witness for C7 at a concrete buffer and brightness pair 0 ≤ 1. -/
theorem log_density_monotone_in_brightness_witness :
    ((logDensity 0 1 (⟨1, 1, [⟨2, 3, 4, 5⟩]⟩ : Buffer ℝ)).buckets.getD 0 default).alpha ≤
      ((logDensity 1 1 (⟨1, 1, [⟨2, 3, 4, 5⟩]⟩ : Buffer ℝ)).buckets.getD 0 default).alpha :=
  log_density_monotone_in_brightness ⟨1, 1, [⟨2, 3, 4, 5⟩]⟩ 1 0 1 (by norm_num) 0

lemma totalWeight_nonneg (fs : List FunctionEntry) (hw : ∀ e ∈ fs, 0 ≤ e.weight) :
    0 ≤ totalWeight fs := by
  induction fs with
  | nil => simp [totalWeight]
  | cons fe rest ih =>
    have h1 := hw fe (List.mem_cons_self ..)
    have h2 := ih (fun e he => hw e (List.mem_cons_of_mem _ he))
    simp only [totalWeight, List.map_cons, List.sum_cons] at *
    linarith

lemma prefixW_nonneg (fs : List FunctionEntry) (k : ℕ) (hw : ∀ e ∈ fs, 0 ≤ e.weight) :
    0 ≤ prefixW fs k := by
  have : ∀ e ∈ fs.take k, 0 ≤ e.weight := fun e he => hw e (List.mem_of_mem_take he)
  exact totalWeight_nonneg (fs.take k) this

lemma pickGo_none_of_total_le (fs : List FunctionEntry) (x r : ℝ)
    (hw : ∀ e ∈ fs, 0 ≤ e.weight) (h : x + totalWeight fs ≤ r) :
    pickGo x r fs = none := by
  induction fs generalizing x with
  | nil => simp [pickGo]
  | cons fe rest ih =>
    have hrest : 0 ≤ totalWeight rest :=
      totalWeight_nonneg rest (fun e he => hw e (List.mem_cons_of_mem _ he))
    have htot : totalWeight (fe :: rest) = fe.weight + totalWeight rest := by
      simp [totalWeight]
    rw [htot] at h
    simp only [pickGo]
    rw [if_neg (not_lt.mpr (by linarith : x + fe.weight ≤ r))]
    exact ih (x + fe.weight) (fun e he => hw e (List.mem_cons_of_mem _ he)) (by linarith)

lemma pickGo_bracket (fs : List FunctionEntry) (x r : ℝ) (k : ℕ) (hk : k < fs.length)
    (hw : ∀ e ∈ fs, 0 ≤ e.weight)
    (h1 : x + prefixW fs k ≤ r) (h2 : r < x + prefixW fs (k + 1)) :
    pickGo x r fs = some (fs.get ⟨k, hk⟩) := by
  induction fs generalizing x k with
  | nil => simp at hk
  | cons fe rest ih =>
    cases k with
    | zero =>
      simp only [prefixW, List.take_succ_cons, List.take_zero, List.map_cons, List.map_nil,
        List.sum_cons, List.sum_nil, add_zero] at h2
      simp [pickGo, if_pos (by linarith : r < x + fe.weight)]
    | succ k' =>
      have hpre : 0 ≤ prefixW rest k' :=
        prefixW_nonneg rest k' (fun e he => hw e (List.mem_cons_of_mem _ he))
      have e1 : prefixW (fe :: rest) (k' + 1) = fe.weight + prefixW rest k' := by
        simp [prefixW]
      have e2 : prefixW (fe :: rest) (k' + 2) = fe.weight + prefixW rest (k' + 1) := by
        simp [prefixW]
      rw [e1] at h1
      rw [e2] at h2
      simp only [pickGo]
      rw [if_neg (not_lt.mpr (by linarith : x + fe.weight ≤ r))]
      rw [show (fe :: rest).get ⟨k' + 1, hk⟩ = rest.get ⟨k', by simpa using hk⟩ from rfl]
      exact ih (x + fe.weight) k' (by simpa using hk)
        (fun e he => hw e (List.mem_cons_of_mem _ he)) (by linarith) (by linarith)

/-- C3 (amended): on a non-empty entry list with nonnegative weights and
positive total weight, `rand_entry` never fails; it selects by
cumulative-sum roulette (the entry at index `k` is returned exactly when
the sample `r` falls in the k-th cumulative-weight interval), and when
the cumulative sum undershoots (`total ≤ r`) the last entry is the
fallback. -/
theorem rand_entry_roulette_total (fs : List FunctionEntry) (r : ℝ) (hne : fs ≠ [])
    (hw : ∀ e ∈ fs, 0 ≤ e.weight) (hpos : 0 < totalWeight fs) :
    (rand_entry fs r).isSome ∧
    (totalWeight fs ≤ r → rand_entry fs r = some (fs.getLast hne)) ∧
    (∀ k (hk : k < fs.length), prefixW fs k ≤ r → r < prefixW fs (k + 1) →
      rand_entry fs r = some (fs.get ⟨k, hk⟩)) := by
  have hif : ¬ totalWeight fs ≤ 0 := not_le.mpr hpos
  refine ⟨?_, ?_, ?_⟩
  · simp [rand_entry, hif]
  · intro hr
    rw [rand_entry, if_neg hif, pickGo_none_of_total_le fs 0 r hw (by linarith)]
    simp [List.getLast?_eq_getLast _ hne]
  · intro k hk h1 h2
    rw [rand_entry, if_neg hif, pickGo_bracket fs 0 r k hk hw (by linarith) (by linarith)]
    simp

/-- Witness for C3's amended theorem: a two-entry list with weights 1 and
2, sampled at r = 3/2, falls in the second entry's interval. -/
theorem rand_entry_roulette_total_witness :
    rand_entry [cexEntry, { cexEntry with weight := 2 }] (3 / 2) =
      some ((([cexEntry, { cexEntry with weight := 2 }] :
        List FunctionEntry).get ⟨1, by norm_num⟩)) :=
  (rand_entry_roulette_total [cexEntry, { cexEntry with weight := 2 }] (3 / 2)
      (by simp)
      (by intro e he
          rcases List.mem_cons.mp he with h | he2
          · simp [h, cexEntry]
          · rcases List.mem_cons.mp he2 with h | h
            · simp [h, cexEntry]
            · simp at h)
      (by norm_num [totalWeight, cexEntry])).2.2 1 (by norm_num)
    (by norm_num [prefixW, cexEntry])
    (by norm_num [prefixW, cexEntry])

/-- C3 counterexample: a non-empty entry list whose single weight is 0
(nonnegative) makes `rand_entry` abort — `Uniform::new(0.0, 0.0)` has an
empty range and the `unwrap` fails — refuting "never fails on a
non-empty entry list for all weights ≥ 0". -/
theorem rand_entry_zero_total_fails :
    (0 : ℝ) ≤ ({ cexEntry with weight := 0 } : FunctionEntry).weight ∧
    rand_entry [{ cexEntry with weight := 0 }] 0 = none := by
  constructor
  · simp
  · simp [rand_entry, totalWeight]

lemma runPartial_of_empty (f : Flame) (buffer : Buffer ℕ) (iters : ℕ) (rng : ℕ → IterRand)
    (p0 : Pt) (c0 : ℝ) (hf : f.functions = []) :
    runPartial f buffer iters rng p0 c0 = (buffer, ⟨p0, c0⟩) := by
  simp [runPartial, hf]

lemma zipWith_add_new_new (n : ℕ) :
    List.zipWith Bucket.add (List.replicate n (⟨0, 0, 0, 0⟩ : Bucket ℕ))
      (List.replicate n ⟨0, 0, 0, 0⟩) = List.replicate n ⟨0, 0, 0, 0⟩ :=
  zipWith_add_zero_right _ n (by simp)

lemma combineGo_zeros (w h k : ℕ) :
    Buffer.combineGo (Buffer.new w h) (List.replicate k (Buffer.new w h)) =
      some (Buffer.new w h : Buffer ℕ) := by
  induction k with
  | zero => simp [Buffer.combineGo]
  | succ m ih =>
    simp only [List.replicate_succ, Buffer.combineGo, Buffer.new, and_self, if_true]
    rw [zipWith_add_new_new]
    exact ih

/-- C9 (amended): a Flame with an empty function-entry list and any run
configuration with at least one thread produces the all-zero buffer of
the configured dimensions and never fails. -/
theorem run_empty_functions_all_zero (f : Flame) (cfg : RunConfig) (streams : ℕ → RunStream)
    (hf : f.functions = []) (ht : 1 ≤ cfg.threads) :
    run f cfg streams = some (Buffer.new cfg.width cfg.height) := by
  have hsingle : ∀ (it : ℕ) (st : RunStream),
      runSingleThread f cfg.width cfg.height it st = Buffer.new cfg.width cfg.height := by
    intro it st
    simp [runSingleThread, runPartial_of_empty f _ it st.rng st.p0 st.c0 hf]
  by_cases h1 : cfg.threads = 1
  · simp [run, h1, hsingle]
  · rw [run, if_neg h1]
    have hmap : (List.range cfg.threads).map (fun t =>
        runSingleThread f cfg.width cfg.height (cfg.iters / cfg.threads) (streams t)) =
        List.replicate cfg.threads (Buffer.new cfg.width cfg.height) := by
      rw [List.map_congr_left (fun t _ => hsingle (cfg.iters / cfg.threads) (streams t))]
      simp [List.map_const']
    rw [hmap]
    obtain ⟨m, hm⟩ : ∃ m, cfg.threads = m + 1 := ⟨cfg.threads - 1, by omega⟩
    rw [hm, List.replicate_succ, Buffer.combine]
    exact combineGo_zeros cfg.width cfg.height m

/-- Witness for C9's amended theorem at a concrete empty flame and a
3-thread configuration. -/
theorem run_empty_functions_all_zero_witness :
    run emptyFlame ⟨2, 2, 100, 3⟩ (fun _ => cexStream) = some (Buffer.new 2 2) :=
  run_empty_functions_all_zero emptyFlame ⟨2, 2, 100, 3⟩ (fun _ => cexStream)
    (by simp [emptyFlame]) (by norm_num)

/-- C9 counterexample: with thread count 0 (a legal `usize` value of
`RunConfig`), `Flame::run` spawns no workers and `Buffer::combine` of
the empty buffer list aborts, refuting "never fails for every thread
count". -/
theorem run_zero_threads_fails :
    run emptyFlame ⟨2, 2, 100, 0⟩ (fun _ => cexStream) = none := by
  simp [run, Buffer.combine]

lemma usizeOfReal_le_of_le (x : ℝ) (n : ℕ) (h : x ≤ (n : ℝ)) : usizeOfReal x ≤ n := by
  have h1 : ⌊x⌋ ≤ (n : ℤ) := by
    have := Int.floor_le_floor h
    simpa using this
  calc usizeOfReal x = (⌊x⌋).toNat := rfl
    _ ≤ ((n : ℤ)).toNat := Int.toNat_le_toNat h1
    _ = n := by simp

/-- C10: for a buffer with positive dimensions and a non-degenerate
bounding rectangle, every point accepted by `Bounds::contains` is mapped
by the screen transform to coordinates that truncate into
[0, width-1] × [0, height-1], so the flat bucket index used by
`Buffer::at_mut` stays inside the bucket vector. -/
theorem screen_transform_index_safe (b : Bounds) (width height : ℕ) (p : Pt)
    (hw : 1 ≤ width) (hh : 1 ≤ height) (hx : b.x_min < b.x_max) (hy : b.y_min < b.y_max)
    (hp : b.contains p) :
    usizeOfReal ((screenTransform b width height).apply p).x ≤ width - 1 ∧
    usizeOfReal ((screenTransform b width height).apply p).y ≤ height - 1 ∧
    usizeOfReal ((screenTransform b width height).apply p).x +
      usizeOfReal ((screenTransform b width height).apply p).y * width < width * height := by
  obtain ⟨hx1, hx2, hy1, hy2⟩ := hp
  have hdx : (0 : ℝ) < b.x_max - b.x_min := by linarith
  have hdy : (0 : ℝ) < b.y_max - b.y_min := by linarith
  have hw1 : (0 : ℝ) ≤ (width : ℝ) - 1 := by
    have : (1 : ℝ) ≤ (width : ℝ) := by exact_mod_cast hw
    linarith
  have hh1 : (0 : ℝ) ≤ (height : ℝ) - 1 := by
    have : (1 : ℝ) ≤ (height : ℝ) := by exact_mod_cast hh
    linarith
  have hqx : ((screenTransform b width height).apply p).x =
      ((width : ℝ) - 1) * ((p.x - b.x_min) / (b.x_max - b.x_min)) := by
    simp only [screenTransform, Affine.apply, Bounds.width]
    ring
  have hqy : ((screenTransform b width height).apply p).y =
      ((height : ℝ) - 1) * ((b.y_max - p.y) / (b.y_max - b.y_min)) := by
    simp only [screenTransform, Affine.apply, Bounds.height]
    ring
  have hratx : (p.x - b.x_min) / (b.x_max - b.x_min) ≤ 1 :=
    (div_le_one hdx).mpr (by linarith)
  have hraty : (b.y_max - p.y) / (b.y_max - b.y_min) ≤ 1 :=
    (div_le_one hdy).mpr (by linarith)
  have hbx : ((screenTransform b width height).apply p).x ≤ ((width - 1 : ℕ) : ℝ) := by
    rw [hqx]
    have : ((width : ℝ) - 1) * ((p.x - b.x_min) / (b.x_max - b.x_min)) ≤
        ((width : ℝ) - 1) * 1 := by
      apply mul_le_mul_of_nonneg_left hratx hw1
    have hcast : ((width - 1 : ℕ) : ℝ) = (width : ℝ) - 1 := by
      push_cast [hw]
      ring
    linarith
  have hby : ((screenTransform b width height).apply p).y ≤ ((height - 1 : ℕ) : ℝ) := by
    rw [hqy]
    have : ((height : ℝ) - 1) * ((b.y_max - p.y) / (b.y_max - b.y_min)) ≤
        ((height : ℝ) - 1) * 1 := by
      apply mul_le_mul_of_nonneg_left hraty hh1
    have hcast : ((height - 1 : ℕ) : ℝ) = (height : ℝ) - 1 := by
      push_cast [hh]
      ring
    linarith
  have h1 := usizeOfReal_le_of_le _ _ hbx
  have h2 := usizeOfReal_le_of_le _ _ hby
  refine ⟨h1, h2, ?_⟩
  have hlt1 : usizeOfReal ((screenTransform b width height).apply p).x < width := by omega
  have hlt2 : usizeOfReal ((screenTransform b width height).apply p).y + 1 ≤ height := by omega
  calc usizeOfReal ((screenTransform b width height).apply p).x +
        usizeOfReal ((screenTransform b width height).apply p).y * width
      < width + usizeOfReal ((screenTransform b width height).apply p).y * width := by omega
    _ = (usizeOfReal ((screenTransform b width height).apply p).y + 1) * width := by ring
    _ ≤ height * width := Nat.mul_le_mul_right width hlt2
    _ = width * height := Nat.mul_comm ..

/-- Witness for C10 on the default bounds, a 2×2 buffer and the origin. -/
theorem screen_transform_index_safe_witness :
    usizeOfReal ((screenTransform ⟨-1, 1, -1, 1⟩ 2 2).apply ⟨0, 0⟩).x ≤ 2 - 1 ∧
    usizeOfReal ((screenTransform ⟨-1, 1, -1, 1⟩ 2 2).apply ⟨0, 0⟩).y ≤ 2 - 1 ∧
    usizeOfReal ((screenTransform ⟨-1, 1, -1, 1⟩ 2 2).apply ⟨0, 0⟩).x +
      usizeOfReal ((screenTransform ⟨-1, 1, -1, 1⟩ 2 2).apply ⟨0, 0⟩).y * 2 < 2 * 2 :=
  screen_transform_index_safe ⟨-1, 1, -1, 1⟩ 2 2 ⟨0, 0⟩ (by norm_num) (by norm_num)
    (by norm_num) (by norm_num) (by constructor <;> norm_num)

/-- C4 (amended): with a non-empty function list, `run_partial` plots at
the iteration with 0-based index `n` exactly when `n > 20` and the
updated point lies strictly inside the bounds — so the first 21
iterations (not 20) are discarded as burn-in, and from the 22nd
iteration onward every in-bounds point increments a bucket. -/
theorem run_partial_burn_in (f : Flame) (buffer : Buffer ℕ) (rng : ℕ → IterRand)
    (p0 : Pt) (c0 : ℝ) (hf : f.functions ≠ []) :
    (∀ n ≤ 21, (runPartial f buffer n rng p0 c0).1 = buffer) ∧
    (∀ n, runPartial f buffer (n + 1) rng p0 c0 =
      ((if 20 < n ∧ f.bounds.contains
            (iterStep f (rng n) (runPartial f buffer n rng p0 c0).2).point then
          plotStep f (screenTransform f.bounds buffer.width buffer.height)
            (runPartial f buffer n rng p0 c0).1
            (iterStep f (rng n) (runPartial f buffer n rng p0 c0).2)
        else (runPartial f buffer n rng p0 c0).1),
        iterStep f (rng n) (runPartial f buffer n rng p0 c0).2)) := by
  have he : f.functions.isEmpty = false := by
    simpa [List.isEmpty_iff] using hf
  constructor
  · intro n hn
    induction n with
    | zero => simp [runPartial, he, runPartialAux]
    | succ m ih =>
      have hm : m ≤ 21 := by omega
      have h20 : ¬ 20 < m := by omega
      simp only [runPartial, he, Bool.false_eq_true, if_false, runPartialAux] at ih ⊢
      rw [if_neg (by tauto)]
      exact ih hm
  · intro n
    simp [runPartial, he, runPartialAux]

/-- Shared helper for the C4 counterexample: one step of the identity
flame leaves the state (1/2, 1/2, color 1/2) fixed. -/
lemma cex_iterStep_fixed :
    iterStep cexFlame cexRand ⟨⟨1/2, 1/2⟩, 1/2⟩ = ⟨⟨1/2, 1/2⟩, 1/2⟩ := by
  have hpick : pickGo 0 (1/2) [cexEntry] = some cexEntry := by
    rw [pickGo, if_pos]
    simp [cexEntry]
    norm_num
  simp only [iterStep, cexRand, cexFlame, hpick, Option.getD_some]
  simp [Function.eval, Variation.eval, Affine.apply, Affine.id, cexEntry, default]

/-- Shared helper for the C4 counterexample: up to 21 iterations of the
identity flame change nothing at all. -/
lemma cex_run_const (tr : Affine) (n : ℕ) (hn : n ≤ 21) :
    runPartialAux cexFlame tr cexRng n (Buffer.new 10 10, ⟨⟨1/2, 1/2⟩, 1/2⟩) =
      (Buffer.new 10 10, ⟨⟨1/2, 1/2⟩, 1/2⟩) := by
  induction n with
  | zero => rfl
  | succ m ih =>
    have hm : m ≤ 21 := by omega
    have h20 : ¬ 20 < m := by omega
    simp only [runPartialAux, ih hm, cexRng, cex_iterStep_fixed]
    rw [if_neg (by tauto)]

/-- C4 counterexample: running the identity flame for 21 iterations
leaves the buffer untouched even though the point of the 21st iteration
(0-based index 20) lies strictly inside the bounds — the claim that
"every iteration from the 21st onward whose point lies inside increments
a bucket" fails at the 21st iteration. -/
theorem run_partial_burn_in_counterexample :
    cexFlame.bounds.contains
      ((runPartial cexFlame (Buffer.new 10 10) 21 cexRng ⟨1/2, 1/2⟩ (1/2)).2.point) ∧
    (runPartial cexFlame (Buffer.new 10 10) 21 cexRng ⟨1/2, 1/2⟩ (1/2)).1 =
      Buffer.new 10 10 := by
  have he : cexFlame.functions.isEmpty = false := by simp [cexFlame]
  have hrun : runPartial cexFlame (Buffer.new 10 10) 21 cexRng ⟨1/2, 1/2⟩ (1/2) =
      (Buffer.new 10 10, ⟨⟨1/2, 1/2⟩, 1/2⟩) := by
    simp only [runPartial, he, Bool.false_eq_true, if_false, Buffer.new]
    exact cex_run_const _ 21 le_rfl
  rw [hrun]
  refine ⟨?_, rfl⟩
  simp only [cexFlame, Bounds.contains]
  norm_num

/-- Witness for C4's amended theorem: five iterations of the identity
flame leave the concrete buffer unchanged. -/
theorem run_partial_burn_in_witness :
    (runPartial cexFlame (Buffer.new 10 10) 5 cexRng ⟨1/2, 1/2⟩ (1/2)).1 =
      Buffer.new 10 10 :=
  (run_partial_burn_in cexFlame (Buffer.new 10 10) cexRng ⟨1/2, 1/2⟩ (1/2)
    (by simp [cexFlame])).1 5 (by norm_num)

lemma pickGo_mem (fs : List FunctionEntry) (x r : ℝ) (e : FunctionEntry)
    (h : pickGo x r fs = some e) : e ∈ fs := by
  induction fs generalizing x with
  | nil => simp [pickGo] at h
  | cons fe rest ih =>
    rw [pickGo] at h
    by_cases hc : r < x + fe.weight
    · rw [if_pos hc] at h
      exact (Option.some_inj.mp h) ▸ List.mem_cons_self ..
    · rw [if_neg hc] at h
      exact List.mem_cons_of_mem _ (ih _ h)

lemma selected_entry_cases (fs : List FunctionEntry) (r : ℝ) :
    (pickGo 0 r fs).getD ((fs.getLast?).getD default) ∈ fs ∨
      (pickGo 0 r fs).getD ((fs.getLast?).getD default) = default := by
  cases hp : pickGo 0 r fs with
  | some e => exact Or.inl (by simpa using pickGo_mem fs 0 r e hp)
  | none =>
    cases hl : fs.getLast? with
    | some e =>
      have hmem : e ∈ fs.getLast? := by rw [hl]; exact Option.mem_def.mpr rfl
      obtain ⟨hne, rfl⟩ := List.mem_getLast?_eq_getLast hmem
      exact Or.inl (by simpa [hp, hl] using List.getLast_mem hne)
    | none => exact Or.inr (by simp [hp, hl])

lemma ema_unit_interval (c col s : ℝ) (hc0 : 0 ≤ c) (hc1 : c ≤ 1)
    (h1 : 0 ≤ col) (h2 : col ≤ 1) (h3 : 0 ≤ s) (h4 : s ≤ 1) :
    0 ≤ c * (1 - s) + col * s ∧ c * (1 - s) + col * s ≤ 1 := by
  constructor <;> nlinarith

lemma sample_isSome_of_unit (p : Palette) (c : ℝ) (h0 : 0 ≤ c) (h1 : c ≤ 1) :
    (p.sample c).isSome := by
  rw [Palette.sample, if_neg (by push_neg; exact ⟨h0, h1⟩)]
  rfl

lemma iterStep_c_unit (f : Flame) (ir : IterRand) (s : ChaosState)
    (hent : ∀ e ∈ f.functions, 0 ≤ e.color ∧ e.color ≤ 1 ∧
      0 ≤ e.color_speed ∧ e.color_speed ≤ 1)
    (h0 : 0 ≤ s.c) (h1 : s.c ≤ 1) :
    0 ≤ (iterStep f ir s).c ∧ (iterStep f ir s).c ≤ 1 := by
  obtain ⟨cs, er, rt, v1, v2⟩ := ir
  match cs with
  | 0 =>
    simp only [iterStep]
    rcases selected_entry_cases f.functions er with hm | hd
    · obtain ⟨a1, a2, a3, a4⟩ := hent _ hm
      exact ema_unit_interval s.c _ _ h0 h1 a1 a2 a3 a4
    · rw [hd]
      have : (default : FunctionEntry).color = 0 ∧ (default : FunctionEntry).color_speed = 0 :=
        ⟨rfl, rfl⟩
      rw [this.1, this.2]
      constructor <;> nlinarith
  | 1 => simpa [iterStep] using ⟨h0, h1⟩
  | 2 => simpa [iterStep] using ⟨h0, h1⟩
  | (n + 3) => simpa [iterStep] using ⟨h0, h1⟩

/-- C5: if every function entry has color and color speed in [0,1] (as
`FunctionEntry::new` enforces) and the initial color coordinate is drawn
from [0,1), the exponential-moving-average color update keeps the color
coordinate in [0,1] after every iteration, so the palette sample inside
`run_partial` always receives an in-range argument and the
`.expect("color index out of bounds")` abort is unreachable. -/
theorem run_partial_color_coordinate_safe (f : Flame) (buffer : Buffer ℕ)
    (rng : ℕ → IterRand) (p0 : Pt) (c0 : ℝ)
    (hent : ∀ e ∈ f.functions, 0 ≤ e.color ∧ e.color ≤ 1 ∧
      0 ≤ e.color_speed ∧ e.color_speed ≤ 1)
    (hc0 : 0 ≤ c0) (hc1 : c0 < 1) :
    ∀ n, (0 ≤ (runPartial f buffer n rng p0 c0).2.c ∧
        (runPartial f buffer n rng p0 c0).2.c ≤ 1) ∧
      (f.palette.sample ((runPartial f buffer n rng p0 c0).2.c)).isSome := by
  have key : ∀ n, 0 ≤ (runPartial f buffer n rng p0 c0).2.c ∧
      (runPartial f buffer n rng p0 c0).2.c ≤ 1 := by
    intro n
    by_cases he : f.functions.isEmpty
    · simp [runPartial, he]
      exact ⟨hc0, le_of_lt hc1⟩
    · simp only [runPartial, he, Bool.false_eq_true, if_false]
      induction n with
      | zero => exact ⟨hc0, le_of_lt hc1⟩
      | succ m ih =>
        have hstate : (runPartialAux f (screenTransform f.bounds buffer.width buffer.height)
            rng (m + 1) (buffer, ⟨p0, c0⟩)).2 =
            iterStep f (rng m) ((runPartialAux f
              (screenTransform f.bounds buffer.width buffer.height)
              rng m (buffer, ⟨p0, c0⟩)).2) := rfl
        rw [hstate]
        exact iterStep_c_unit f (rng m) _ hent ih.1 ih.2
  intro n
  exact ⟨key n, sample_isSome_of_unit _ _ (key n).1 (key n).2⟩

/-- Witness for C5 at the identity flame after three iterations. -/
theorem run_partial_color_coordinate_safe_witness :
    (0 ≤ (runPartial cexFlame (Buffer.new 10 10) 3 cexRng ⟨1/2, 1/2⟩ (1/2)).2.c ∧
      (runPartial cexFlame (Buffer.new 10 10) 3 cexRng ⟨1/2, 1/2⟩ (1/2)).2.c ≤ 1) ∧
    (cexFlame.palette.sample
      ((runPartial cexFlame (Buffer.new 10 10) 3 cexRng ⟨1/2, 1/2⟩ (1/2)).2.c)).isSome :=
  run_partial_color_coordinate_safe cexFlame (Buffer.new 10 10) cexRng ⟨1/2, 1/2⟩ (1/2)
    (by intro e he
        simp only [cexFlame] at he
        rcases List.mem_cons.mp he with h | h
        · simp [h, cexEntry]
        · simp at h)
    (by norm_num) (by norm_num) 3

lemma foldl_maxB_proj (π : Bucket ℝ → ℝ)
    (hπ : ∀ a b, π (Bucket.maxB a b) = max (π a) (π b))
    (l : List (Bucket ℝ)) (b0 : Bucket ℝ) :
    π b0 ≤ π (l.foldl Bucket.maxB b0) ∧ ∀ x ∈ l, π x ≤ π (l.foldl Bucket.maxB b0) := by
  induction l generalizing b0 with
  | nil => simp
  | cons c t ih =>
    have step : π b0 ≤ π (Bucket.maxB b0 c) := by rw [hπ]; exact le_max_left _ _
    have stepc : π c ≤ π (Bucket.maxB b0 c) := by rw [hπ]; exact le_max_right _ _
    obtain ⟨h1, h2⟩ := ih (Bucket.maxB b0 c)
    refine ⟨le_trans step h1, ?_⟩
    intro x hx
    rcases List.mem_cons.mp hx with rfl | hx
    · exact le_trans stepc h1
    · exact h2 x hx

lemma maxB_alpha (a b : Bucket ℝ) : (Bucket.maxB a b).alpha = max a.alpha b.alpha := rfl

lemma maxB_red (a b : Bucket ℝ) : (Bucket.maxB a b).red = max a.red b.red := rfl

lemma maxB_green (a b : Bucket ℝ) : (Bucket.maxB a b).green = max a.green b.green := rfl

lemma maxB_blue (a b : Bucket ℝ) : (Bucket.maxB a b).blue = max a.blue b.blue := rfl

lemma logDensity_convert_nonneg (br it : ℝ) (buf : Buffer ℕ) :
    ∀ bk ∈ (logDensity br it buf.convert).buckets,
      0 ≤ bk.alpha ∧ 0 ≤ bk.red ∧ 0 ≤ bk.green ∧ 0 ≤ bk.blue := by
  intro bk hbk
  simp only [logDensity, Buffer.convert, List.map_map, List.mem_map] at hbk
  obtain ⟨bk0, hmem, rfl⟩ := hbk
  simp only [Function.comp_apply, Bucket.map, Bucket.smul]
  split <;> refine ⟨?_, ?_, ?_, ?_⟩ <;> positivity

lemma normalize_unit (w h : ℕ) (bks : List (Bucket ℝ))
    (hnn : ∀ bk ∈ bks, 0 ≤ bk.alpha ∧ 0 ≤ bk.red ∧ 0 ≤ bk.green ∧ 0 ≤ bk.blue)
    (hne : bks ≠ [])
    (hα : 0 < (normMaxBucket ⟨w, h, bks⟩).alpha) (hrgb : 0 < normMaxRgb ⟨w, h, bks⟩) :
    ∃ nbks, normalize ⟨w, h, bks⟩ = some ⟨w, h, nbks⟩ ∧
      ∀ bk ∈ nbks, (0 ≤ bk.alpha ∧ bk.alpha ≤ 1) ∧ (0 ≤ bk.red ∧ bk.red ≤ 1) ∧
        (0 ≤ bk.green ∧ bk.green ≤ 1) ∧ (0 ≤ bk.blue ∧ bk.blue ≤ 1) := by
  obtain ⟨b0, rest, rfl⟩ : ∃ b0 rest, bks = b0 :: rest := by
    cases bks with
    | nil => exact absurd rfl hne
    | cons b0 rest => exact ⟨b0, rest, rfl⟩
  have hm : normMaxBucket ⟨w, h, b0 :: rest⟩ = rest.foldl Bucket.maxB b0 := rfl
  set m := rest.foldl Bucket.maxB b0 with hmdef
  set maxRgb := max (max m.red m.green) m.blue with hrgbdef
  have hmr : normMaxRgb ⟨w, h, b0 :: rest⟩ = maxRgb := rfl
  rw [hm] at hα
  rw [hmr] at hrgb
  have hbound : ∀ bk ∈ b0 :: rest,
      bk.alpha ≤ m.alpha ∧ bk.red ≤ maxRgb ∧ bk.green ≤ maxRgb ∧ bk.blue ≤ maxRgb := by
    intro bk hbk
    have pa := foldl_maxB_proj (·.alpha) maxB_alpha rest b0
    have pr := foldl_maxB_proj (·.red) maxB_red rest b0
    have pg := foldl_maxB_proj (·.green) maxB_green rest b0
    have pb := foldl_maxB_proj (·.blue) maxB_blue rest b0
    have hr2 : m.red ≤ maxRgb := le_trans (le_max_left _ _) (le_max_left _ _)
    have hg2 : m.green ≤ maxRgb := le_trans (le_max_right _ _) (le_max_left _ _)
    have hb2 : m.blue ≤ maxRgb := le_max_right _ _
    rcases List.mem_cons.mp hbk with rfl | hbk
    · exact ⟨pa.1, le_trans pr.1 hr2, le_trans pg.1 hg2, le_trans pb.1 hb2⟩
    · exact ⟨pa.2 bk hbk, le_trans (pr.2 bk hbk) hr2, le_trans (pg.2 bk hbk) hg2,
        le_trans (pb.2 bk hbk) hb2⟩
  refine ⟨_, rfl, ?_⟩
  intro bk hbk
  simp only [List.mem_map] at hbk
  obtain ⟨bk0, hmem, rfl⟩ := hbk
  obtain ⟨ha0, hr0, hg0, hb0⟩ := hnn bk0 hmem
  obtain ⟨ha1, hr1, hg1, hb1⟩ := hbound bk0 hmem
  exact ⟨⟨div_nonneg ha0 (le_of_lt hα), (div_le_one hα).mpr ha1⟩,
    ⟨div_nonneg hr0 (le_of_lt hrgb), (div_le_one hrgb).mpr hr1⟩,
    ⟨div_nonneg hg0 (le_of_lt hrgb), (div_le_one hrgb).mpr hg1⟩,
    ⟨div_nonneg hb0 (le_of_lt hrgb), (div_le_one hrgb).mpr hb1⟩⟩

lemma scale_unit (maxS : ℕ) (v : ℝ) (h0 : 0 ≤ v) (h1 : v ≤ 1) :
    ∃ out, scale maxS v = some out ∧ out ≤ maxS := by
  have hmax : max 0 v = v := max_eq_right h0
  have hw : (maxS : ℝ) * max 0 v ≤ (maxS : ℝ) := by
    rw [hmax]
    nlinarith [Nat.cast_nonneg (α := ℝ) maxS]
  simp only [scale]
  rw [if_pos (by linarith)]
  refine ⟨_, rfl, ?_⟩
  have hfl : ⌊(maxS : ℝ) * max 0 v⌋ ≤ (maxS : ℤ) := by
    have := Int.floor_le_floor hw
    simpa using this
  calc (⌊(maxS : ℝ) * max 0 v⌋).toNat ≤ ((maxS : ℤ)).toNat := Int.toNat_le_toNat hfl
    _ = maxS := by simp

lemma scaleBuckets_unit (maxS : ℕ) (l : List (Bucket ℝ))
    (hu : ∀ bk ∈ l, (0 ≤ bk.alpha ∧ bk.alpha ≤ 1) ∧ (0 ≤ bk.red ∧ bk.red ≤ 1) ∧
      (0 ≤ bk.green ∧ bk.green ≤ 1) ∧ (0 ≤ bk.blue ∧ bk.blue ≤ 1)) :
    ∃ out, scaleBuckets maxS l = some out ∧
      ∀ bk ∈ out, bk.alpha ≤ maxS ∧ bk.red ≤ maxS ∧ bk.green ≤ maxS ∧ bk.blue ≤ maxS := by
  induction l with
  | nil => exact ⟨[], rfl, by simp⟩
  | cons bk0 t ih =>
    obtain ⟨⟨ha0, ha1⟩, ⟨hr0, hr1⟩, ⟨hg0, hg1⟩, ⟨hb0, hb1⟩⟩ := hu bk0 (List.mem_cons_self ..)
    obtain ⟨oa, hoa, hba⟩ := scale_unit maxS bk0.alpha ha0 ha1
    obtain ⟨or2, hor, hbr⟩ := scale_unit maxS bk0.red hr0 hr1
    obtain ⟨og, hog, hbg⟩ := scale_unit maxS bk0.green hg0 hg1
    obtain ⟨ob, hob, hbb⟩ := scale_unit maxS bk0.blue hb0 hb1
    obtain ⟨outl, houtl, hboundl⟩ := ih (fun bk hbk => hu bk (List.mem_cons_of_mem _ hbk))
    refine ⟨⟨oa, or2, og, ob⟩ :: outl, ?_, ?_⟩
    · simp only [scaleBuckets, Bucket.mapOpt, hoa, hor, hog, hob, houtl]
    · intro bk hbk
      rcases List.mem_cons.mp hbk with rfl | hbk
      · exact ⟨hba, hbr, hbg, hbb⟩
      · exact hboundl bk hbk

/-- C1 (amended): `Buffer::render` applies log-density compression, then
normalization, then the scale/convert stage — the `gamma`/`clamp`
methods are not invoked by `render`, and the code's `RenderConfig`
carries no gamma or vibrancy parameter.  `scale` clamps each channel
below at 0 only; nevertheless, whenever the buffer is nonempty and the
normalization maxima are positive, every normalized channel already lies
in [0,1], so `render` succeeds and every output channel is at most the
target type's maximum value. -/
theorem render_stage_order_no_gamma_no_clamp (maxS : ℕ) (cfg : RenderConfig) (iters : ℕ)
    (buf : Buffer ℕ) (hb : buf.buckets ≠ [])
    (hα : 0 < (normMaxBucket (logDensity cfg.brightness (iters : ℝ) buf.convert)).alpha)
    (hrgb : 0 < normMaxRgb (logDensity cfg.brightness (iters : ℝ) buf.convert)) :
    render maxS cfg iters buf =
      (normalize (logDensity cfg.brightness (iters : ℝ) buf.convert)).bind
        (scaleConvert maxS) ∧
    ∃ out, render maxS cfg iters buf = some out ∧
      ∀ bk ∈ out.buckets, bk.alpha ≤ maxS ∧ bk.red ≤ maxS ∧ bk.green ≤ maxS ∧
        bk.blue ≤ maxS := by
  refine ⟨rfl, ?_⟩
  have hnn := logDensity_convert_nonneg cfg.brightness (iters : ℝ) buf
  have hld : logDensity cfg.brightness (iters : ℝ) buf.convert =
      ⟨buf.width, buf.height, (logDensity cfg.brightness (iters : ℝ) buf.convert).buckets⟩ :=
    rfl
  have hne : (logDensity cfg.brightness (iters : ℝ) buf.convert).buckets ≠ [] := by
    simp only [logDensity, Buffer.convert, List.map_map, ne_eq, List.map_eq_nil_iff]
    exact hb
  obtain ⟨nbks, hnb, hunit⟩ := normalize_unit buf.width buf.height
    (logDensity cfg.brightness (iters : ℝ) buf.convert).buckets
    hnn hne (by rw [← hld]; exact hα) (by rw [← hld]; exact hrgb)
  obtain ⟨outl, houtl, hbound⟩ := scaleBuckets_unit maxS nbks hunit
  refine ⟨⟨buf.width, buf.height, outl⟩, ?_, ?_⟩
  · rw [render, hld, hnb]
    simp only [Option.some_bind, scaleConvert, houtl, Option.map_some']
  · intro bk hbk
    exact hbound bk hbk

lemma cex_logDensity :
    logDensity 1 ((1 : ℕ) : ℝ) cexBuf.convert =
      ⟨2, 1, [⟨1, 4, 0, 0⟩, ⟨1, 1, 0, 0⟩]⟩ := by
  simp only [logDensity, Buffer.convert, cexBuf, Bucket.map, Bucket.smul, List.map_cons,
    List.map_nil, Nat.cast_one, Real.log_one, Nat.cast_ofNat, Nat.cast_zero]
  norm_num

lemma cex_normalize :
    normalize (⟨2, 1, [⟨1, 4, 0, 0⟩, ⟨1, 1, 0, 0⟩]⟩ : Buffer ℝ) =
      some ⟨2, 1, [⟨1, 1, 0, 0⟩, ⟨1, 1/4, 0, 0⟩]⟩ := by
  simp only [normalize, Bucket.maxB, List.foldl_cons, List.foldl_nil, List.map_cons,
    List.map_nil]
  norm_num

lemma floor_toNat_eq (r : ℝ) (n : ℕ) (h1 : (n : ℝ) ≤ r) (h2 : r < n + 1) :
    (⌊r⌋).toNat = n := by
  have hf : ⌊r⌋ = (n : ℤ) := by
    rw [Int.floor_eq_iff]
    constructor
    · exact_mod_cast h1
    · push_cast
      exact h2
  rw [hf]
  simp

lemma scale_val (v : ℝ) (n : ℕ) (hv : 0 ≤ v) (h1 : (n : ℝ) ≤ 255 * v)
    (h2 : 255 * v < n + 1) (hlt : (255 : ℝ) * v < 256) :
    scale 255 v = some n := by
  simp only [scale]
  rw [max_eq_right hv]
  rw [if_pos (by push_cast; linarith)]
  have : ((255 : ℕ) : ℝ) = (255 : ℝ) := by norm_num
  rw [this]
  rw [floor_toNat_eq (255 * v) n h1 h2]

lemma cex_scaleBuckets :
    scaleBuckets 255 [⟨1, 1, 0, 0⟩, ⟨1, 1/4, 0, 0⟩] =
      some [⟨255, 255, 0, 0⟩, ⟨255, 63, 0, 0⟩] := by
  have s1 : scale 255 1 = some 255 := scale_val 1 255 (by norm_num) (by norm_num)
    (by norm_num) (by norm_num)
  have s0 : scale 255 0 = some 0 := scale_val 0 0 le_rfl (by norm_num) (by norm_num)
    (by norm_num)
  have sq : scale 255 (1/4) = some 63 := scale_val (1/4) 63 (by norm_num) (by norm_num)
    (by norm_num) (by norm_num)
  simp only [scaleBuckets, Bucket.mapOpt, s1, s0, sq]

lemma cex_scaleBuckets_spec :
    scaleBuckets 255 [⟨1, 1, 0, 0⟩, ⟨1, 1/2, 0, 0⟩] =
      some [⟨255, 255, 0, 0⟩, ⟨255, 127, 0, 0⟩] := by
  have s1 : scale 255 1 = some 255 := scale_val 1 255 (by norm_num) (by norm_num)
    (by norm_num) (by norm_num)
  have s0 : scale 255 0 = some 0 := scale_val 0 0 le_rfl (by norm_num) (by norm_num)
    (by norm_num)
  have sh : scale 255 (1/2) = some 127 := scale_val (1/2) 127 (by norm_num) (by norm_num)
    (by norm_num) (by norm_num)
  simp only [scaleBuckets, Bucket.mapOpt, s1, s0, sh]

lemma quarter_rpow : (1/4 : ℝ) ^ (-(1/2) : ℝ) = 2 := by
  rw [Real.rpow_neg (by norm_num)]
  rw [← Real.sqrt_eq_rpow]
  rw [show (1/4 : ℝ) = (1/2 : ℝ)^2 by norm_num]
  rw [Real.sqrt_sq (by norm_num : (0:ℝ) ≤ 1/2)]
  norm_num

lemma cex_gamma :
    gammaStage 2 0 (⟨2, 1, [⟨1, 1, 0, 0⟩, ⟨1, 1/4, 0, 0⟩]⟩ : Buffer ℝ) =
      ⟨2, 1, [⟨1, 1, 0, 0⟩, ⟨1, 1/2, 0, 0⟩]⟩ := by
  simp only [gammaStage, Bucket.map, List.map_cons, List.map_nil]
  rw [show ((2:ℝ)⁻¹ - 1) * (1 - 0) = (-(1/2) : ℝ) by norm_num]
  rw [show ((2:ℝ)⁻¹ - 1) * 0 = (0 : ℝ) by ring]
  simp only [Real.rpow_zero, Real.one_rpow, quarter_rpow]
  norm_num

lemma cex_clamp :
    clampStage (⟨2, 1, [⟨1, 1, 0, 0⟩, ⟨1, 1/2, 0, 0⟩]⟩ : Buffer ℝ) =
      ⟨2, 1, [⟨1, 1, 0, 0⟩, ⟨1, 1/2, 0, 0⟩]⟩ := by
  simp only [clampStage, Bucket.map, List.map_cons, List.map_nil]
  norm_num

/-- C1 counterexample: on a concrete 2×1 merged histogram, `render`
(log-density → normalize → scale/convert) disagrees with the spec's
five-stage pipeline (which inserts gamma/vibrancy correction, here at
gamma 2 and vibrancy 0, and a clamp before the scale stage): the second
bucket's red channel comes out 63 under the code and 127 under the
spec's pipeline, so the claimed gamma and clamp stages are not applied
by `render`. -/
theorem render_spec_pipeline_counterexample :
    render 255 ⟨1, 2, 1, false⟩ 1 cexBuf ≠ renderSpecStages 255 ⟨1, 2, 1, false⟩ 2 0 1 cexBuf := by
  have hr : render 255 ⟨1, 2, 1, false⟩ 1 cexBuf =
      some ⟨2, 1, [⟨255, 255, 0, 0⟩, ⟨255, 63, 0, 0⟩]⟩ := by
    simp only [render]
    rw [cex_logDensity, cex_normalize]
    simp only [Option.some_bind, scaleConvert, cex_scaleBuckets, Option.map_some']
  have hs : renderSpecStages 255 ⟨1, 2, 1, false⟩ 2 0 1 cexBuf =
      some ⟨2, 1, [⟨255, 255, 0, 0⟩, ⟨255, 127, 0, 0⟩]⟩ := by
    simp only [renderSpecStages]
    rw [cex_logDensity, cex_normalize]
    simp only [Option.some_bind]
    rw [cex_gamma, cex_clamp]
    simp only [scaleConvert, cex_scaleBuckets_spec, Option.map_some']
  rw [hr, hs]
  simp

/-- Witness for C1's amended theorem at the concrete 2×1 histogram. -/
theorem render_stage_order_witness :
    render 255 ⟨1, 2, 1, false⟩ 1 cexBuf =
      (normalize (logDensity (⟨1, 2, 1, false⟩ : RenderConfig).brightness ((1 : ℕ) : ℝ)
        cexBuf.convert)).bind (scaleConvert 255) ∧
    ∃ out, render 255 ⟨1, 2, 1, false⟩ 1 cexBuf = some out ∧
      ∀ bk ∈ out.buckets, bk.alpha ≤ 255 ∧ bk.red ≤ 255 ∧ bk.green ≤ 255 ∧ bk.blue ≤ 255 :=
  render_stage_order_no_gamma_no_clamp 255 ⟨1, 2, 1, false⟩ 1 cexBuf
    (by simp [cexBuf])
    (by rw [show (⟨1, 2, 1, false⟩ : RenderConfig).brightness = (1 : ℝ) from rfl,
          cex_logDensity]
        norm_num [normMaxBucket, Bucket.maxB])
    (by rw [show (⟨1, 2, 1, false⟩ : RenderConfig).brightness = (1 : ℝ) from rfl,
          cex_logDensity]
        norm_num [normMaxRgb, normMaxBucket, Bucket.maxB])

lemma rposition_none (p : ℝ → Prop) [DecidablePred p] (l : List ℝ)
    (h : ∀ k ∈ l, ¬ p k) : rposition p l = none := by
  induction l with
  | nil => rfl
  | cons k rest ih =>
    simp only [rposition, ih (fun x hx => h x (List.mem_cons_of_mem _ hx))]
    rw [if_neg (h k (List.mem_cons_self ..))]

lemma rposition_last (p : ℝ → Prop) [DecidablePred p] (l : List ℝ) (j : ℕ) (hj : j < l.length)
    (hpj : p (l.get ⟨j, hj⟩))
    (hafter : ∀ i (hi : i < l.length), j < i → ¬ p (l.get ⟨i, hi⟩)) :
    rposition p l = some j := by
  induction l generalizing j with
  | nil => simp at hj
  | cons k rest ih =>
    cases j with
    | zero =>
      have hrest : rposition p rest = none := by
        apply rposition_none
        intro x hx
        obtain ⟨i, rfl⟩ := List.mem_iff_get.mp hx
        exact hafter (i.1 + 1) (by simpa using i.2) (Nat.succ_pos _)
      simp only [rposition, hrest]
      rw [if_pos (show p k from hpj)]
    | succ j' =>
      have hrest : rposition p rest = some j' := by
        apply ih j' (by simpa using hj) hpj
        intro i hi hgt
        exact hafter (i + 1) (by simpa using hi) (by omega)
      simp only [rposition, hrest]

lemma keys_sorted_get (pal : Palette) (hv : pal.Valid) (i j : Fin pal.keys.length)
    (h : i < j) : pal.keys.get i < pal.keys.get j := by
  have hpw : pal.keys.Pairwise (· < ·) := List.chain'_iff_pairwise.mp hv.2.1
  exact List.pairwise_iff_get.mp hpw i j h

lemma boundaryKey_succ (pal : Palette) (j : ℕ) :
    boundaryKey pal (j + 1) = pal.keys.getD j 1 := by
  simp [boundaryKey]

lemma boundaryKey_succ_get (pal : Palette) (j : ℕ) (hj : j < pal.keys.length) :
    boundaryKey pal (j + 1) = pal.keys.get ⟨j, hj⟩ := by
  rw [boundaryKey_succ, List.getD_eq_getElem _ _ hj]
  simp

lemma boundaryKey_top (pal : Palette) (j : ℕ) (hj : pal.keys.length ≤ j) :
    boundaryKey pal (j + 1) = 1 := by
  rw [boundaryKey_succ, List.getD_eq_default _ _ hj]

lemma boundaryKey_nonneg (pal : Palette) (hv : pal.Valid) (j : ℕ) :
    0 ≤ boundaryKey pal j := by
  cases j with
  | zero => exact le_rfl
  | succ j' =>
    rw [boundaryKey_succ]
    rcases lt_or_ge j' pal.keys.length with h | h
    · rw [List.getD_eq_getElem _ _ h]
      exact le_of_lt (hv.1 _ (List.getElem_mem h)).1
    · rw [List.getD_eq_default _ _ h]
      norm_num

lemma boundaryKey_le_one (pal : Palette) (hv : pal.Valid) (j : ℕ) :
    boundaryKey pal j ≤ 1 := by
  cases j with
  | zero => norm_num [boundaryKey]
  | succ j' =>
    rw [boundaryKey_succ]
    rcases lt_or_ge j' pal.keys.length with h | h
    · rw [List.getD_eq_getElem _ _ h]
      exact le_of_lt (hv.1 _ (List.getElem_mem h)).2
    · rw [List.getD_eq_default _ _ h]

lemma boundaryKey_strict_mono (pal : Palette) (hv : pal.Valid) (j : ℕ)
    (hj : j ≤ pal.keys.length) : boundaryKey pal j < boundaryKey pal (j + 1) := by
  cases j with
  | zero =>
    rcases Nat.eq_zero_or_pos pal.keys.length with h0 | hpos
    · rw [boundaryKey_top pal 0 (by omega)]
      norm_num [boundaryKey]
    · rw [boundaryKey_succ_get pal 0 hpos]
      exact (hv.1 _ (List.get_mem _ _ _)).1
  | succ j' =>
    have hj' : j' < pal.keys.length := by omega
    rw [boundaryKey_succ_get pal j' hj']
    rcases lt_or_ge (j' + 1) pal.keys.length with h | h
    · rw [boundaryKey_succ_get pal (j' + 1) h]
      exact keys_sorted_get pal hv _ _ (by simp)
    · rw [boundaryKey_top pal (j' + 1) h]
      exact (hv.1 _ (List.get_mem _ _ _)).2

lemma u8OfReal_natCast (n : ℕ) (h : n ≤ 255) : u8OfReal (n : ℝ) = n := by
  rw [u8OfReal, Int.floor_natCast, min_eq_right (by exact_mod_cast h)]
  simp

lemma color_lerp_zero (c1 c2 : Color) (h : c1.red ≤ 255 ∧ c1.green ≤ 255 ∧ c1.blue ≤ 255) :
    Color.lerp c1 c2 0 = c1 := by
  obtain ⟨h1, h2, h3⟩ := h
  simp only [Color.lerp, Flames.lerp]
  rw [show ((1:ℝ) - 0) = 1 by norm_num]
  simp only [mul_one, mul_zero, add_zero]
  cases c1
  simp_all [u8OfReal_natCast]

lemma color_lerp_one (c1 c2 : Color) (h : c2.red ≤ 255 ∧ c2.green ≤ 255 ∧ c2.blue ≤ 255) :
    Color.lerp c1 c2 1 = c2 := by
  obtain ⟨h1, h2, h3⟩ := h
  simp only [Color.lerp, Flames.lerp]
  rw [show ((1:ℝ) - 1) = 0 by norm_num]
  simp only [mul_one, mul_zero, zero_add]
  cases c2
  simp_all [u8OfReal_natCast]

lemma sample_interp (pal : Palette) (hv : pal.Valid) (c : ℝ) (j : ℕ)
    (hj : j ≤ pal.keys.length)
    (hlo : boundaryKey pal j < c) (hhi : c ≤ boundaryKey pal (j + 1)) :
    pal.sample c = some (Color.lerp (pal.colors.getD j default) (pal.colors.getD (j + 1) default)
      ((c - boundaryKey pal j) / (boundaryKey pal (j + 1) - boundaryKey pal j))) := by
  have h0 : 0 ≤ boundaryKey pal j := boundaryKey_nonneg pal hv j
  have h1 : boundaryKey pal (j + 1) ≤ 1 := boundaryKey_le_one pal hv (j + 1)
  have hcnn : ¬ (c < 0 ∨ 1 < c) := by push_neg; exact ⟨by linarith, by linarith⟩
  cases j with
  | zero =>
    have hrpos : rposition (· < c) pal.keys = none := by
      apply rposition_none
      intro k hk
      obtain ⟨i, rfl⟩ := List.mem_iff_get.mp hk
      have hlenpos : 0 < pal.keys.length := Nat.lt_of_le_of_lt (Nat.zero_le i.1) i.2
      have hge : boundaryKey pal 1 ≤ pal.keys.get i := by
        rw [boundaryKey_succ_get pal 0 hlenpos]
        rcases Nat.eq_zero_or_pos i.1 with hz | hp
        · exact le_of_eq (congrArg pal.keys.get (Fin.ext hz.symm))
        · exact le_of_lt (keys_sorted_get pal hv ⟨0, hlenpos⟩ i hp)
      exact not_lt.mpr (le_trans hhi hge)
    simp only [Palette.sample, if_neg hcnn, hrpos]
    have hbk0 : boundaryKey pal 0 = 0 := rfl
    rw [hbk0, boundaryKey_succ]
    norm_num
  | succ j' =>
    have hj' : j' < pal.keys.length := by omega
    have hrpos : rposition (· < c) pal.keys = some j' := by
      apply rposition_last _ _ j' hj'
      · exact (boundaryKey_succ_get pal j' hj') ▸ hlo
      · intro i hi hgt
        apply not_lt.mpr
        rcases lt_or_ge (j' + 1) pal.keys.length with hlen | hlen
        · have hc1 : c ≤ pal.keys.get ⟨j' + 1, hlen⟩ := by
            rw [← boundaryKey_succ_get pal (j' + 1) hlen]
            exact hhi
          rcases eq_or_lt_of_le (show j' + 1 ≤ i from hgt) with heq | hlt
          · exact le_of_le_of_eq hc1 (congrArg pal.keys.get (Fin.ext heq))
          · exact le_of_lt (lt_of_le_of_lt hc1
              (keys_sorted_get pal hv ⟨j' + 1, hlen⟩ ⟨i, hi⟩ hlt))
        · omega
    simp only [Palette.sample, if_neg hcnn, hrpos]
    have hkb : pal.keys.getD (j' + 1 - 1) 0 = boundaryKey pal (j' + 1) := by
      rw [boundaryKey_succ_get pal j' hj']
      rw [show j' + 1 - 1 = j' from rfl, List.getD_eq_getElem _ _ hj']
      simp [List.get_eq_getElem]
    have hka : pal.keys.getD (j' + 1) 1 = boundaryKey pal (j' + 1 + 1) := by
      rw [boundaryKey_succ]
    simp only [Nat.add_eq, hkb, hka]
    rw [if_neg (by omega : ¬ j' + 1 = 0)]

lemma colors_getD_bounds (pal : Palette) (hv : pal.Valid) (j : ℕ) (hj : j < pal.colors.length) :
    (pal.colors.getD j default).red ≤ 255 ∧ (pal.colors.getD j default).green ≤ 255 ∧
      (pal.colors.getD j default).blue ≤ 255 := by
  rw [List.getD_eq_getElem _ _ hj]
  exact hv.2.2.2 _ (List.getElem_mem hj)

lemma sample_zero (pal : Palette) (hv : pal.Valid) :
    pal.sample 0 = some (pal.colors.getD 0 default) := by
  have hcnn : ¬ ((0:ℝ) < 0 ∨ 1 < (0:ℝ)) := by norm_num
  have hrpos : rposition (· < (0:ℝ)) pal.keys = none := by
    apply rposition_none
    intro k hk
    exact not_lt.mpr (le_of_lt (hv.1 k hk).1)
  simp only [Palette.sample, if_neg hcnn, hrpos, if_true, sub_zero, zero_div]
  rw [color_lerp_zero _ _ (colors_getD_bounds pal hv 0 (by have := hv.2.2.1; omega))]

lemma sample_at_boundary_key (pal : Palette) (hv : pal.Valid) (j : ℕ)
    (hj : j ≤ pal.keys.length) :
    pal.sample (boundaryKey pal (j + 1)) = some (pal.colors.getD (j + 1) default) := by
  have hmono := boundaryKey_strict_mono pal hv j hj
  rw [sample_interp pal hv _ j hj hmono le_rfl]
  rw [div_self (ne_of_gt (sub_pos.mpr hmono))]
  rw [color_lerp_one _ _ (colors_getD_bounds pal hv (j + 1) (by have := hv.2.2.1; omega))]

lemma sample_none_iff (pal : Palette) (c : ℝ) :
    pal.sample c = none ↔ (c < 0 ∨ 1 < c) := by
  by_cases h : c < 0 ∨ 1 < c
  · simp [Palette.sample, h]
  · simp [Palette.sample, h]

lemma chain'_lt_of_adjacent (l : List ℝ) (h : ∀ pr ∈ l.zip l.tail, pr.1 < pr.2) :
    l.Chain' (· < ·) := by
  induction l with
  | nil => simp
  | cons a rest ih =>
    cases rest with
    | nil => simp
    | cons b t =>
      rw [List.chain'_cons]
      refine ⟨h (a, b) (by simp), ih ?_⟩
      intro pr hpr
      apply h pr
      simp only [List.tail_cons, List.zip_cons_cons]
      exact List.mem_cons_of_mem _ hpr

/-- `Palette::new` with explicit keys accepts exactly the inputs that
satisfy the validity invariant, given the `u8` range of the colors. -/
lemma palette_new_valid (colors : List Color) (ks : List ℝ) (pal : Palette)
    (hc : ∀ col ∈ colors, col.red ≤ 255 ∧ col.green ≤ 255 ∧ col.blue ≤ 255)
    (h : Palette.new colors (some ks) = some pal) : pal.Valid := by
  simp only [Palette.new] at h
  by_cases h1 : ∃ k ∈ ks, k ≤ 0 ∨ 1 ≤ k
  · rw [if_pos h1] at h
    exact absurd h (by simp)
  rw [if_neg h1] at h
  by_cases h2 : ∃ pr ∈ ks.zip ks.tail, pr.2 ≤ pr.1
  · rw [if_pos h2] at h
    exact absurd h (by simp)
  rw [if_neg h2] at h
  by_cases h3 : ks.length + 2 = colors.length
  · rw [if_pos h3] at h
    obtain rfl : (⟨ks, colors⟩ : Palette) = pal := Option.some_inj.mp h
    push_neg at h1 h2
    refine ⟨?_, ?_, h3, hc⟩
    · exact h1
    · exact chain'_lt_of_adjacent ks h2
  · rw [if_neg h3] at h
    exact absurd h (by simp)

/-- C8: For every valid palette, `sample` returns `None` exactly when
the argument is outside [0,1] (failing explicitly, never clamping); it
returns exactly the stored color at every key (the implicit boundary key
0, each interior key, and the implicit boundary key 1); between two
consecutive keys it returns the piecewise-linear interpolation of the
two bracketing colors; and it is pure, so repeated calls agree. -/
theorem palette_sample_piecewise_linear (pal : Palette) (hv : pal.Valid) :
    (∀ c : ℝ, pal.sample c = none ↔ (c < 0 ∨ 1 < c)) ∧
    pal.sample 0 = some (pal.colors.getD 0 default) ∧
    (∀ j, j ≤ pal.keys.length →
      pal.sample (boundaryKey pal (j + 1)) = some (pal.colors.getD (j + 1) default)) ∧
    (∀ (c : ℝ) (j : ℕ), j ≤ pal.keys.length →
      boundaryKey pal j < c → c ≤ boundaryKey pal (j + 1) →
      pal.sample c = some (Color.lerp (pal.colors.getD j default)
        (pal.colors.getD (j + 1) default)
        ((c - boundaryKey pal j) / (boundaryKey pal (j + 1) - boundaryKey pal j)))) ∧
    (∀ c : ℝ, pal.sample c = pal.sample c) :=
  ⟨fun c => sample_none_iff pal c, sample_zero pal hv,
    fun j hj => sample_at_boundary_key pal hv j hj,
    fun c j hj hlo hhi => sample_interp pal hv c j hj hlo hhi,
    fun _ => rfl⟩

/-- Witness for C8 at a concrete three-color palette with interior key
1/2: sampling at the interior key returns exactly the middle color. -/
theorem palette_sample_piecewise_linear_witness :
    witPalette.sample (boundaryKey witPalette (0 + 1)) =
      some (witPalette.colors.getD (0 + 1) default) :=
  (palette_sample_piecewise_linear witPalette
    (by refine ⟨?_, ?_, ?_, ?_⟩
        · intro k hk
          simp only [witPalette, List.mem_singleton] at hk
          subst hk
          norm_num
        · simp [witPalette]
        · simp [witPalette]
        · intro col hcol
          simp only [witPalette, List.mem_cons, List.mem_singleton] at hcol
          rcases hcol with rfl | rfl | rfl | hcol
          · norm_num
          · norm_num
          · norm_num
          · simp at hcol)).2.2.1 0 (by norm_num [witPalette])

end Flames
